import Mathlib

/-!
Verification development for the s3dedup repository: a shallow embedding of
the normalizer, index-store queries, scanner, pass-3 hashing driver,
retention selector and rename planner, with theorems settling the frozen
claims about them.

Strings are modelled as lists of characters (`Str`).  Library calls of the
source (Unicode lowercasing and NFKD decompositions, SQL LIKE, Python
regular expressions) are embedded as executable functions on `Str`,
restricted to the character data they are exercised on: the lowercase and
decomposition tables cover ASCII plus the Latin-1 accented letters the
repository's own tests use.
-/

namespace S3Dedup

/-- Strings as lists of characters. -/
abbrev Str := List Char

/-- Coerce a Lean string literal to the model's string type. -/
def str (s : String) : Str := s.data

/-! ## Character classes (models of Python's str/re behaviour) -/

/-- Model of Python's whitespace class (str.strip, regex backslash-s):
ASCII whitespace plus the no-break space. -/
def pyIsSpace (c : Char) : Bool :=
  decide (c = ' ') || decide (c = '\t') || decide (c = '\n') || decide (c = '\r') ||
  decide (c = '\x0b') || decide (c = '\x0c') || decide (c = ' ')

/-- ASCII decimal digit: model of the regex digit class backslash-d. -/
def isDigitCh (c : Char) : Bool :=
  decide ('0' ≤ c) && decide (c ≤ '9')

/-- Model of Python's str.isdigit character predicate: decimal digits plus
the superscript digits one, two, three (category No) that isdigit accepts. -/
def pyIsDigitCh (c : Char) : Bool :=
  isDigitCh c || decide (c = '¹') || decide (c = '²') || decide (c = '³')

/-- Hexadecimal digit (used only by the spec-side etag pattern). -/
def isHexCh (c : Char) : Bool :=
  isDigitCh c || (decide ('a' ≤ c) && decide (c ≤ 'f')) ||
  (decide ('A' ≤ c) && decide (c ≤ 'F'))

/-- Lowercasing table modelling Python str.lower on the characters this
development exercises: ASCII letters, the Latin-1 accented capitals and the
Greek capital omega.  (The double-struck capital ℂ has no lowercase mapping;
str.lower leaves it unchanged, so it is rightly absent here.) -/
def lowerTable : List (Char × Char) :=
  [('A', 'a'), ('B', 'b'), ('C', 'c'), ('D', 'd'), ('E', 'e'), ('F', 'f'),
   ('G', 'g'), ('H', 'h'), ('I', 'i'), ('J', 'j'), ('K', 'k'), ('L', 'l'),
   ('M', 'm'), ('N', 'n'), ('O', 'o'), ('P', 'p'), ('Q', 'q'), ('R', 'r'),
   ('S', 's'), ('T', 't'), ('U', 'u'), ('V', 'v'), ('W', 'w'), ('X', 'x'),
   ('Y', 'y'), ('Z', 'z'),
   ('À', 'à'), ('Â', 'â'), ('Ã', 'ã'), ('Ä', 'ä'), ('Ç', 'ç'),
   ('È', 'è'), ('É', 'é'), ('Ê', 'ê'), ('Ë', 'ë'),
   ('Î', 'î'), ('Ï', 'ï'), ('Ô', 'ô'), ('Ö', 'ö'),
   ('Ù', 'ù'), ('Û', 'û'), ('Ü', 'ü'), ('Ω', 'ω')]

/-- Association-list lookup (structural, kernel-evaluable). -/
def tlookup {α : Type} : List (Char × α) → Char → Option α
  | [], _ => none
  | (k, v) :: rest, c => if c = k then some v else tlookup rest c

/-- Model of Python str.lower, character-wise over `lowerTable`. -/
def pyLower (c : Char) : Char :=
  match tlookup lowerTable c with
  | some d => d
  | none => c

/-- NFKD decompositions for the characters this development exercises: each
accented Latin-1 lowercase letter maps to its base letter followed by a
combining mark, and the double-struck capital ℂ compatibility-decomposes to
the plain capital C (NFKD can resurface uppercase letters, which is why the
normalizer's output need not be a lowercase fixpoint); characters outside
the table decompose to themselves. -/
def decompTable : List (Char × List Char) :=
  [('à', ['a', '̀']), ('â', ['a', '̂']), ('ã', ['a', '̃']),
   ('ä', ['a', '̈']), ('ç', ['c', '̧']),
   ('è', ['e', '̀']), ('é', ['e', '́']), ('ê', ['e', '̂']),
   ('ë', ['e', '̈']),
   ('î', ['i', '̂']), ('ï', ['i', '̈']),
   ('ô', ['o', '̂']), ('ö', ['o', '̈']),
   ('ù', ['u', '̀']), ('û', ['u', '̂']), ('ü', ['u', '̈']),
   ('ℂ', ['C'])]

/-- One character's NFKD decomposition under the model table. -/
def decomposeChar (c : Char) : List Char :=
  match tlookup decompTable c with
  | some l => l
  | none => [c]

/-- Combining marks (Unicode category Mn as the combining-diacritics block,
which covers every mark `decompTable` produces). -/
def isMark (c : Char) : Bool :=
  decide (0x300 ≤ c.toNat) && decide (c.toNat ≤ 0x36f)

/-- Model of normalizer._strip_accents: NFKD-decompose then drop marks. -/
def stripAccents (l : Str) : Str :=
  (l.flatMap decomposeChar).filter (fun c => !(isMark c))

/-! ## posixpath -/

/-- posixpath.basename: the portion after the last slash. -/
def basename (l : Str) : Str :=
  (l.reverse.takeWhile (fun c => decide (c ≠ '/'))).reverse

/-- Index of the last occurrence of a character (Python str.rfind). -/
def rfindIdx (c : Char) (l : Str) : Option Nat :=
  ((List.range l.length).filter (fun i => decide (l.getD i ' ' = c))).getLast?

/-- posixpath.splitext, following CPython's genericpath._splitext: split at
the last dot after the last slash, unless every character between the slash
and that dot is a dot (leading-dot filenames keep their dots). -/
def splitext (p : Str) : Str × Str :=
  match rfindIdx '.' p with
  | none => (p, [])
  | some d =>
    let fstart : Nat :=
      match rfindIdx '/' p with
      | none => 0
      | some s => s + 1
    if d < fstart then (p, [])
    else if ((p.drop fstart).take (d - fstart)).all (fun c => decide (c = '.')) then (p, [])
    else (p.take d, p.drop d)

/-! ## Copy-suffix patterns (normalizer._COPY_SUFFIX_PATTERNS)

Each pattern is anchored at end-of-stem; a matcher returns the stem with
the matched suffix removed, or none when the pattern does not match. -/

/-- Head-is-whitespace test on the rest of a string. -/
def headSpace : Str → Bool
  | [] => false
  | d :: _ => pyIsSpace d

/-- Pattern `whitespace* ( digits+ )` at end of stem. -/
def subParenNum (l : Str) : Option Str :=
  match l.reverse with
  | ')' :: r1 =>
    let ds := r1.takeWhile isDigitCh
    if ds.isEmpty then none
    else
      match r1.drop ds.length with
      | '(' :: r3 => some ((r3.dropWhile pyIsSpace).reverse)
      | _ => none
  | _ => none

/-- Pattern `whitespace* - whitespace* <word>` at end of stem,
case-insensitively; `w` is given in lowercase. -/
def subDashWord (w : Str) (l : Str) : Option Str :=
  let r := l.reverse
  if (r.take w.length).map pyLower = w.reverse then
    match (r.drop w.length).dropWhile pyIsSpace with
    | '-' :: r2 => some ((r2.dropWhile pyIsSpace).reverse)
    | _ => none
  else none

/-- Pattern `[_ ]copy` at end of stem, case-insensitively. -/
def subUnderscoreCopy (l : Str) : Option Str :=
  let r := l.reverse
  if (r.take 4).map pyLower = ['y', 'p', 'o', 'c'] then
    match r.drop 4 with
    | c :: r2 => if decide (c = '_') || decide (c = ' ') then some r2.reverse else none
    | [] => none
  else none

/-- Pattern `_ digits+` at end of stem. -/
def subUnderscoreNum (l : Str) : Option Str :=
  let r := l.reverse
  let ds := r.takeWhile isDigitCh
  if ds.isEmpty then none
  else
    match r.drop ds.length with
    | '_' :: r2 => some r2.reverse
    | _ => none

/-- The French copy word, lowercase. -/
def wordCopie : Str := str "copie"

/-- The English copy word, lowercase. -/
def wordCopy : Str := str "copy"

/-- Python re end anchor: a pattern `X$` (no MULTILINE) matches at the very
end of the string, or just before one final newline, in which case the sub
keeps that newline.  Since each of the five copy patterns ends in a
parenthesis, a letter or a digit, it can never match at the strict end of a
newline-terminated string, so the two cases are exclusive for them. -/
def dollarSub (f : Str → Option Str) (l : Str) : Option Str :=
  match l.reverse with
  | '\n' :: r =>
    match f r.reverse with
    | some s => some (s ++ ['\n'])
    | none => none
  | _ => f l

/-- Apply one pattern's sub: strip when matched, identity otherwise. -/
def applySub (f : Str → Option Str) (l : Str) : Str :=
  match f l with
  | some l2 => l2
  | none => l

/-- Model of normalizer._strip_copy_suffixes: the five end-anchored patterns
applied in the source's order, each once. -/
def stripCopySuffixes (l : Str) : Str :=
  applySub (dollarSub subUnderscoreNum)
    (applySub (dollarSub subUnderscoreCopy)
      (applySub (dollarSub (subDashWord wordCopy))
        (applySub (dollarSub (subDashWord wordCopie))
          (applySub (dollarSub subParenNum) l))))

/-- Model of normalizer._has_copy_suffix: some pattern matches at the end. -/
def hasCopySuffix (l : Str) : Bool :=
  (dollarSub subParenNum l).isSome || (dollarSub (subDashWord wordCopie) l).isSome ||
  (dollarSub (subDashWord wordCopy) l).isSome || (dollarSub subUnderscoreCopy l).isSome ||
  (dollarSub subUnderscoreNum l).isSome

/-! ## Whitespace handling -/

/-- Python str.strip(): drop whitespace from both ends. -/
def pystrip (l : Str) : Str :=
  ((l.dropWhile pyIsSpace).reverse.dropWhile pyIsSpace).reverse

/-- Model of re.sub over runs of whitespace replaced by one space: every
maximal whitespace run becomes a single space character. -/
def collapseWs : Str → Str
  | [] => []
  | c :: rest =>
    if pyIsSpace c then
      if headSpace rest then collapseWs rest else ' ' :: collapseWs rest
    else c :: collapseWs rest

/-! ## Mojibake and double-space detectors -/

/-- One position of the mojibake pattern: an A-tilde capital followed by a
byte in 80..BF or a space, or an A-circumflex capital followed by a byte in
A0..BF.  (The pattern's third alternative, A-tilde then 0x83 then
A-circumflex, is subsumed by the first.) -/
def mojiPair (c1 c2 : Char) : Bool :=
  (decide (c1 = 'Ã') &&
    ((decide (0x80 ≤ c2.toNat) && decide (c2.toNat ≤ 0xbf)) || decide (c2 = ' '))) ||
  (decide (c1 = 'Â') && (decide (0xa0 ≤ c2.toNat) && decide (c2.toNat ≤ 0xbf)))

/-- Search for the mojibake pattern anywhere in the stem. -/
def hasMojibake : Str → Bool
  | c1 :: c2 :: rest => mojiPair c1 c2 || hasMojibake (c2 :: rest)
  | _ => false

/-- Search for two consecutive literal spaces (regex: two spaces then more). -/
def hasDoubleSpace : Str → Bool
  | c1 :: c2 :: rest => (decide (c1 = ' ') && decide (c2 = ' ')) || hasDoubleSpace (c2 :: rest)
  | _ => false

/-! ## normalize_name and name_quality_score -/

/-- The stem half of normalizer.normalize_name's pipeline: basename, split
off the extension, lowercase, strip accents, strip copy suffixes, strip
edge whitespace, collapse whitespace runs. -/
def normStem (key : Str) : Str :=
  collapseWs (pystrip (stripCopySuffixes (stripAccents ((splitext (basename key)).1.map pyLower))))

/-- The extension half of normalize_name: lowercased, otherwise untouched. -/
def normExt (key : Str) : Str :=
  (splitext (basename key)).2.map pyLower

/-- Model of normalizer.normalize_name. -/
def normalize_name (key : Str) : Str :=
  normStem key ++ normExt key

/-- Model of normalizer.name_quality_score: penalties over the stem of the
basename (10 mojibake, 5 copy suffix, 2 edge whitespace, 1 double space). -/
def name_quality_score (key : Str) : Nat :=
  let stem := (splitext (basename key)).1
  (if hasMojibake stem then 10 else 0) +
  (if hasCopySuffix stem then 5 else 0) +
  (if decide (stem ≠ pystrip stem) then 2 else 0) +
  (if hasDoubleSpace stem then 1 else 0)

/-! ## Data model (models.py) -/

/-- One indexed object, the six columns the duplicate queries select. -/
structure ObjectInfo where
  key : Str
  size : Nat
  etag : Str
  is_multipart : Bool
  sha256 : Option Str
  last_modified : Int
deriving DecidableEq

instance : Inhabited ObjectInfo := ⟨⟨[], 0, [], false, none, 0⟩⟩

/-- A duplicate group: shared fingerprint, common size, member records. -/
structure DuplicateGroup where
  fingerprint : Str
  size : Nat
  objects : List ObjectInfo
deriving DecidableEq

/-- Counters returned by one scan. -/
structure ScanResult where
  new : Nat
  updated : Nat
  deleted : Nat
deriving DecidableEq

/-! ## Grouping helper (db._group_rows) -/

/-- Set-like insertion at the back: add the value unless present. -/
def insertKey {κ : Type} [DecidableEq κ] (acc : List κ) (v : κ) : List κ :=
  if v ∈ acc then acc else acc ++ [v]

/-- First-occurrence-ordered distinct values of a list. -/
def uniqKeys {κ : Type} [DecidableEq κ] (l : List κ) : List κ :=
  l.foldl insertKey []

/-- Model of db._group_rows: bucket rows by a key function (insertion order,
as a Python dict of lists), keeping buckets of more than one row. -/
def groupsBy {α κ : Type} [DecidableEq κ] (f : α → κ) (rows : List α) : List (List α) :=
  ((uniqKeys (rows.map f)).map (fun v => rows.filter (fun r => decide (f r = v)))).filter
    (fun g => decide (1 < g.length))

/-! ## Index-store queries (db.py), over the objects table's rows -/

/-- Whether a size is shared by more than one record (the size-duplicates
subquery of db.py). -/
def isSizeDup (objs : List ObjectInfo) (s : Nat) : Bool :=
  decide (1 < objs.countP (fun o => decide (o.size = s)))

/-- Rows selected by db.find_etag_duplicates: size duplicated, and etag
shared by more than one size-duplicated row. -/
def etagDupRows (objs : List ObjectInfo) : List ObjectInfo :=
  objs.filter (fun o =>
    isSizeDup objs o.size &&
    decide (1 < (objs.filter (fun p => isSizeDup objs p.size)).countP
      (fun p => decide (p.etag = o.etag))))

/-- Model of db.find_etag_duplicates (Pass 2). -/
def find_etag_duplicates (objs : List ObjectInfo) : List DuplicateGroup :=
  (groupsBy (fun o => o.etag) (etagDupRows objs)).map
    (fun g => ⟨g.headI.etag, g.headI.size, g⟩)

/-- Rows selected by db.find_hash_duplicates: sha256 set and shared by more
than one record. -/
def hashDupRows (objs : List ObjectInfo) : List ObjectInfo :=
  objs.filter (fun o =>
    match o.sha256 with
    | some h => decide (1 < objs.countP (fun p => decide (p.sha256 = some h)))
    | none => false)

/-- Model of db.find_hash_duplicates (Pass 3 grouping). -/
def find_hash_duplicates (objs : List ObjectInfo) : List DuplicateGroup :=
  (groupsBy (fun o => o.sha256) (hashDupRows objs)).map
    (fun g => ⟨g.headI.sha256.getD [], g.headI.size, g⟩)

/-- Model of db.get_all_duplicates: etag groups with no multipart member,
then the sha256 groups. -/
def get_all_duplicates (objs : List ObjectInfo) : List DuplicateGroup :=
  (find_etag_duplicates objs).filter (fun g => !(g.objects.any (fun o => o.is_multipart))) ++
  find_hash_duplicates objs

/-- Whether a size qualifies for Pass 3: some record of that size is
multipart with null sha256, and the size is duplicated (db.py's candidates
subquery). -/
def isCandSize (objs : List ObjectInfo) (s : Nat) : Bool :=
  objs.any (fun o => decide (o.size = s) && o.is_multipart && decide (o.sha256 = none)) &&
  isSizeDup objs s

/-- Model of db.find_multipart_candidates: whole same-size groups containing
an unhashed multipart. -/
def find_multipart_candidates (objs : List ObjectInfo) : List (List ObjectInfo) :=
  groupsBy (fun o => o.size) (objs.filter (fun o => isCandSize objs o.size))

/-- The records hasher.hash_multipart_candidates streams and hashes: every
member of every candidate group (its all_objects list). -/
def pass3_objects (objs : List ObjectInfo) : List ObjectInfo :=
  (find_multipart_candidates objs).flatten

/-! ## Upsert with scanned_at (db.upsert_objects), for the idempotence claim -/

/-- A stored row: the six attributes plus the scanned_at timestamp the
upsert assigns. -/
structure StoredRow where
  obj : ObjectInfo
  scanned_at : Int
deriving DecidableEq

/-- Insert-or-replace one record by key: replacement overwrites every
attribute and sets scanned_at to now; a new key is appended. -/
def upsertOne (now : Int) (db : List StoredRow) (o : ObjectInfo) : List StoredRow :=
  if db.any (fun r => decide (r.obj.key = o.key)) then
    db.map (fun r => if r.obj.key = o.key then ⟨o, now⟩ else r)
  else db ++ [⟨o, now⟩]

/-- Model of db.upsert_objects: the batch's rows applied in order. -/
def upsert_objects (now : Int) (db : List StoredRow) (objects : List ObjectInfo) : List StoredRow :=
  objects.foldl (upsertOne now) db

/-- Lookup of a stored row by key (first match). -/
def lookupRow (k : Str) : List StoredRow → Option StoredRow
  | [] => none
  | r :: rest => if r.obj.key = k then some r else lookupRow k rest

/-- The keys of the stored table, in row order. -/
def keysRow (db : List StoredRow) : List Str :=
  db.map (fun r => r.obj.key)

/-- Last row of a batch carrying a given key, the one whose values win. -/
def lastWith (k : Str) : List ObjectInfo → Option ObjectInfo
  | [] => none
  | o :: rest =>
    match lastWith k rest with
    | some r => some r
    | none => if o.key = k then some o else none

/-- Whether one string literally starts with another. -/
def startsWith (pfx l : Str) : Bool :=
  decide (l.take pfx.length = pfx)

/-! ## SQL LIKE: get_keys_with_prefix builds the pattern prefix ++ percent -/

/-- SQL LIKE matching with fuel (percent matches any run, underscore any one
character, anything else itself); the wrapper supplies adequate fuel. -/
def sqlLikeFuel : Nat → Str → Str → Bool
  | 0, _, _ => false
  | _ + 1, [], s => s.isEmpty
  | f + 1, p :: ps, s =>
    if p = '%' then
      sqlLikeFuel f ps s ||
        (match s with
         | [] => false
         | _ :: s2 => sqlLikeFuel f (p :: ps) s2)
    else
      match s with
      | [] => false
      | c :: s2 => (decide (p = '_') || decide (p = c)) && sqlLikeFuel f ps s2

/-- SQL LIKE over a whole pattern and subject. -/
def sqlLike (pat s : Str) : Bool :=
  sqlLikeFuel (pat.length + s.length + 1) pat s

/-- Association-list lookup by an arbitrary decidable key. -/
def alookup {κ α : Type} [DecidableEq κ] : List (κ × α) → κ → Option α
  | [], _ => none
  | (k, v) :: rest, c => if c = k then some v else alookup rest c

/-- Model of the db helper get_keys_with_prefix: keys and etags of rows whose key
LIKE-matches the scan's pattern (the raw prefix followed by percent). -/
def get_keys_with_prefix (objs : List ObjectInfo) (pfx : Str) : List (Str × Str) :=
  (objs.filter (fun o => sqlLike (pfx ++ ['%']) o.key)).map (fun o => (o.key, o.etag))

/-! ## Scanner (scanner.py) -/

/-- Strip leading and trailing double quotes (Python str.strip with a quote
argument). -/
def stripQuotes (l : Str) : Str :=
  ((l.dropWhile (fun c => decide (c = '"'))).reverse.dropWhile (fun c => decide (c = '"'))).reverse

/-- The portion after the last dash (str.rsplit at the last dash, last piece). -/
def afterLastDash (l : Str) : Str :=
  (l.reverse.takeWhile (fun c => decide (c ≠ '-'))).reverse

/-- Model of scanner.is_multipart_etag: strip quotes, require a dash, and
require the piece after the last dash to be a non-empty digit string. -/
def is_multipart_etag (etag : Str) : Bool :=
  let clean := stripQuotes etag
  clean.any (fun c => decide (c = '-')) &&
    (!(afterLastDash clean).isEmpty && (afterLastDash clean).all pyIsDigitCh)

/-- One entry of the S3 listing. -/
structure ListingEntry where
  key : Str
  size : Nat
  etag : Str
  last_modified : Int
deriving DecidableEq

/-- The object record the scanner builds from a listing entry (sha256 left
null, is_multipart derived from the etag's shape). -/
def entryRecord (e : ListingEntry) : ObjectInfo :=
  ⟨e.key, e.size, e.etag, is_multipart_etag e.etag, none, e.last_modified⟩

/-- The records a scan stages for upsert: non-empty entries that are new or
whose etag changed against the pre-scan key-to-etag map. -/
def scan_staged (db : List ObjectInfo) (listing : List ListingEntry) (pfx : Str) :
    List ObjectInfo :=
  let existing := get_keys_with_prefix db pfx
  (listing.filter (fun e =>
    decide (e.size ≠ 0) &&
      (match alookup existing e.key with
       | some tg => decide (tg ≠ e.etag)
       | none => true))).map entryRecord

/-- The keys a scan has seen (every non-empty listed entry, matched or not). -/
def scan_seen (listing : List ListingEntry) : List Str :=
  (listing.filter (fun e => decide (e.size ≠ 0))).map (fun e => e.key)

/-- The keys a scan deletes: pre-scan map keys absent from the listing. -/
def scan_deleted (db : List ObjectInfo) (listing : List ListingEntry) (pfx : Str) : List Str :=
  (( get_keys_with_prefix db pfx).map Prod.fst).filter
    (fun k => decide (k ∉ scan_seen listing))

/-- Insert-or-replace on the objects table without the scanned_at column
(what a staged batch's flush does to the six selected columns). -/
def upsertInfoOne (db : List ObjectInfo) (o : ObjectInfo) : List ObjectInfo :=
  if db.any (fun r => decide (r.key = o.key)) then
    db.map (fun r => if r.key = o.key then o else r)
  else db ++ [o]

/-- A staged batch flushed in order. -/
def upsertInfos (db : List ObjectInfo) (batch : List ObjectInfo) : List ObjectInfo :=
  batch.foldl upsertInfoOne db

/-- Model of db.delete_objects on the objects table. -/
def delete_objects (db : List ObjectInfo) (keys : List Str) : List ObjectInfo :=
  db.filter (fun o => decide (o.key ∉ keys))

/-- Model of scanner.scan_bucket: stage, flush, then delete the vanished
keys; returns the final table and the counters. -/
def scan_bucket (db : List ObjectInfo) (listing : List ListingEntry) (pfx : Str) :
    List ObjectInfo × ScanResult :=
  let existing := get_keys_with_prefix db pfx
  let staged := scan_staged db listing pfx
  let deleted := scan_deleted db listing pfx
  (delete_objects (upsertInfos db staged) deleted,
   ⟨staged.countP (fun o => decide (alookup existing o.key = none)),
    staged.countP (fun o => decide (alookup existing o.key ≠ none)),
    deleted.length⟩)

/-! ## Decimal rendering (Python str of an int), and the spec-side etag shape -/

/-- Decimal digits of a number, fuelled structural recursion. -/
def toDecimalAux : Nat → Nat → Str
  | 0, _ => []
  | f + 1, n => if n < 10 then [Nat.digitChar n] else toDecimalAux f (n / 10) ++ [Nat.digitChar (n % 10)]

/-- Decimal rendering of a natural number, as Python str renders it. -/
def toDecimal (n : Nat) : Str :=
  toDecimalAux (n + 1) n

/-- Value of a digit string read as decimal. -/
def fromDecimal (l : Str) : Nat :=
  l.foldl (fun acc c => acc * 10 + (c.toNat - 48)) 0

/-- The spec's multipart-etag pattern, stated from the spec's words: a
non-empty hex string, a dash, and a decimal N of positive value. -/
def specMultipartEtag (s : Str) : Bool :=
  (List.range s.length).any (fun i =>
    decide (0 < i) && (s.take i).all isHexCh && decide (s.getD i ' ' = '-') &&
    (!(s.drop (i + 1)).isEmpty && (s.drop (i + 1)).all isDigitCh &&
      decide (1 ≤ fromDecimal (s.drop (i + 1)))))

/-! ## Retention selector (script_generator.py) -/

/-- The four valid retention criteria. -/
inductive Criterion
  | shortest
  | oldest
  | newest
  | cleanest
deriving DecidableEq

/-- One criterion's sort key (smaller wins), from KEEP_CRITERIA. -/
def critKey : Criterion → ObjectInfo → Int
  | .shortest, o => (basename o.key).length
  | .oldest, o => o.last_modified
  | .newest, o => -o.last_modified
  | .cleanest, o => name_quality_score o.key

/-- The composite sort key: one value per criterion, in listed order. -/
def compositeKey (cs : List Criterion) (o : ObjectInfo) : List Int :=
  cs.map (fun c => critKey c o)

/-- Python tuple comparison, strict less-than, on equal-or-prefix shapes. -/
def lexLt : List Int → List Int → Bool
  | [], [] => false
  | [], _ :: _ => true
  | _ :: _, [] => false
  | x :: xs, y :: ys => decide (x < y) || (decide (x = y) && lexLt xs ys)

/-- Python's min with a key function: first element attaining the minimum. -/
def pyMin (f : ObjectInfo → List Int) : List ObjectInfo → Option ObjectInfo
  | [] => none
  | x :: xs => some (xs.foldl (fun best o => if lexLt (f o) (f best) then o else best) x)

/-- Model of script_generator._select_to_delete: the keeper is min by the
composite key; everything whose key differs is deleted. -/
def select_to_delete (g : DuplicateGroup) (cs : List Criterion) :
    Option (ObjectInfo × List ObjectInfo) :=
  match pyMin (compositeKey cs) g.objects with
  | none => none
  | some keeper => some (keeper, g.objects.filter (fun o => decide (o.key ≠ keeper.key)))

/-- Lexicographic strict order on strings by code point (Python str order). -/
def strLt : Str → Str → Bool
  | [], [] => false
  | [], _ :: _ => true
  | _ :: _, [] => false
  | a :: as, b :: bs => if a = b then strLt as bs else decide (a < b)

/-- Non-strict string order. -/
def strLe (a b : Str) : Bool :=
  strLt a b || decide (a = b)

/-! ## Rename planner (cleaner.py) -/

/-- The candidate name a suffix step builds: root, underscore, n, ext. -/
def suffixedName (root ext : Str) (n : Nat) : Str :=
  root ++ '_' :: (toDecimal n ++ ext)

/-- The suffix search loop of cleaner._suffixed, fuelled: try n, n+1, ...
until the candidate is free. -/
def suffixedFuel (root ext : Str) (taken : List Str) : Nat → Nat → Str
  | 0, n => suffixedName root ext n
  | f + 1, n =>
    if suffixedName root ext n ∈ taken then suffixedFuel root ext taken f (n + 1)
    else suffixedName root ext n

/-- Model of cleaner._suffixed: split the target at its extension and search
from 2 up; the fuel provably suffices (see suffixed_spec). -/
def suffixed (target : Str) (taken : List Str) : Str :=
  suffixedFuel (splitext target).1 (splitext target).2 taken (taken.length + 1) 2

/-- Insertion into a sorted list (for Python's sorted over strings). -/
def insertSorted (x : Str) : List Str → List Str
  | [] => [x]
  | y :: ys => if strLe x y then x :: y :: ys else y :: insertSorted x ys

/-- Python's sorted over strings, as insertion sort. -/
def sortStrs (l : List Str) : List Str :=
  l.foldr insertSorted []

/-- Renames bucketed by target, in first-seen target order, sources in
insertion order (the Python dict of lists in _resolve_conflicts). -/
def targetGroups (renames : List (Str × Str)) : List (Str × List Str) :=
  (uniqKeys (renames.map Prod.snd)).map
    (fun t => (t, (renames.filter (fun p => decide (p.2 = t))).map Prod.fst))

/-- The inner loop of _resolve_conflicts over one target's sorted sources:
the first source keeps the target when it is free, every other assignment is
suffixed; each assigned name is reserved in taken. -/
def assignSources (t : Str) : Bool → List Str → List (Str × Str) → List Str →
    List Str × List (Str × Str)
  | _, taken, acc, [] => (taken, acc)
  | first, taken, acc, s :: rest =>
    let cand := if first && decide (t ∉ taken) then t else suffixed t taken
    assignSources t false (cand :: taken) (acc ++ [(s, cand)]) rest

/-- Model of cleaner._resolve_conflicts. -/
def resolve_conflicts (renames : List (Str × Str)) (existing : List Str) :
    List (Str × Str) :=
  let sources := renames.map Prod.fst
  let taken0 := existing.filter (fun k => decide (k ∉ sources))
  ((targetGroups renames).foldl
    (fun acc tg => assignSources tg.1 true acc.1 acc.2 (sortStrs tg.2))
    (taken0, [])).2

/-! ## Auxiliary predicates used to verify the normalizer -/

theorem mem_foldl_insert {κ : Type} [DecidableEq κ] (l : List κ) (acc : List κ) (v : κ) :
    v ∈ l.foldl insertKey acc ↔ v ∈ acc ∨ v ∈ l := by
  induction l generalizing acc with
  | nil => simp
  | cons x xs ih =>
    simp only [List.foldl_cons, ih, List.mem_cons, insertKey]
    by_cases hx : x ∈ acc
    · simp only [if_pos hx]
      constructor
      · rintro (h | h)
        · exact Or.inl h
        · exact Or.inr (Or.inr h)
      · rintro (h | h | h)
        · exact Or.inl h
        · exact Or.inl (h ▸ hx)
        · exact Or.inr h
    · simp only [if_neg hx, List.mem_append, List.mem_singleton]
      tauto

theorem mem_uniqKeys {κ : Type} [DecidableEq κ] (l : List κ) (v : κ) :
    v ∈ uniqKeys l ↔ v ∈ l := by
  unfold uniqKeys
  rw [mem_foldl_insert]
  simp

theorem foldl_insert_absorb {κ : Type} [DecidableEq κ] (l : List κ) (acc : List κ)
    (h : ∀ v ∈ l, v ∈ acc) :
    l.foldl insertKey acc = acc := by
  induction l with
  | nil => rfl
  | cons x xs ih =>
    simp only [List.foldl_cons, insertKey, if_pos (h x (by simp))]
    exact ih (fun v hv => h v (by simp [hv]))

theorem mem_groupsBy {α κ : Type} [DecidableEq κ] (f : α → κ) (rows : List α)
    (g : List α) (hg : g ∈ groupsBy f rows) :
    ∃ v, g = rows.filter (fun r => decide (f r = v)) ∧ 1 < g.length := by
  unfold groupsBy at hg
  rw [List.mem_filter] at hg
  obtain ⟨hg1, hg2⟩ := hg
  rw [List.mem_map] at hg1
  obtain ⟨v, _, rfl⟩ := hg1
  exact ⟨v, rfl, by simpa using hg2⟩

theorem mem_flatten_groupsBy {α κ : Type} [DecidableEq κ] (f : α → κ) (rows : List α)
    (r : α) :
    r ∈ (groupsBy f rows).flatten ↔
      r ∈ rows ∧ 1 < rows.countP (fun p => decide (f p = f r)) := by
  rw [List.mem_flatten]
  constructor
  · rintro ⟨g, hg, hr⟩
    obtain ⟨v, rfl, hlen⟩ := mem_groupsBy f rows g hg
    rw [List.mem_filter] at hr
    obtain ⟨hrows, hfr⟩ := hr
    rw [decide_eq_true_eq] at hfr
    refine ⟨hrows, ?_⟩
    rw [← List.countP_eq_length_filter] at hlen
    simpa [hfr] using hlen
  · rintro ⟨hrows, hcount⟩
    refine ⟨rows.filter (fun p => decide (f p = f r)), ?_, ?_⟩
    · unfold groupsBy
      rw [List.mem_filter]
      constructor
      · rw [List.mem_map]
        exact ⟨f r, (mem_uniqKeys _ _).2 (List.mem_map_of_mem f hrows), rfl⟩
      · simpa [← List.countP_eq_length_filter] using hcount
    · rw [List.mem_filter]
      exact ⟨hrows, by simp⟩

theorem groupsBy_unique {α κ : Type} [DecidableEq κ] (f : α → κ) (rows : List α)
    (g1 g2 : List α) (r : α) (h1 : g1 ∈ groupsBy f rows) (h2 : g2 ∈ groupsBy f rows)
    (hr1 : r ∈ g1) (hr2 : r ∈ g2) : g1 = g2 := by
  obtain ⟨v1, rfl, -⟩ := mem_groupsBy f rows g1 h1
  obtain ⟨v2, rfl, -⟩ := mem_groupsBy f rows g2 h2
  rw [List.mem_filter, decide_eq_true_eq] at hr1 hr2
  rw [← hr1.2, ← hr2.2]

/-! ## Claim C1: what Pass 3 streams and hashes -/

/-- C1 (counterexample): the claim says only records with null sha256 are
streamed and hashed.  In the index {x: size 200 multipart sha null,
y: size 200 multipart sha "h"}, the driver's work list contains y although
y's sha256 is already set: the whole same-size group is re-streamed. -/
theorem c1_hashes_already_hashed_member :
    (⟨str "y", 200, str "bb-3", true, some (str "h"), 0⟩ : ObjectInfo) ∈
      pass3_objects
        [⟨str "x", 200, str "aa-2", true, none, 0⟩,
         ⟨str "y", 200, str "bb-3", true, some (str "h"), 0⟩] ∧
    (⟨str "y", 200, str "bb-3", true, some (str "h"), 0⟩ : ObjectInfo).sha256 ≠ none := by
  constructor
  · decide
  · decide

/-- C1 (amended): the Pass-3 driver streams exactly the members of
same-size groups that still contain a multipart record with null sha256;
a record (hashed already or not) is re-streamed when and only when its size
is duplicated and some record of that size is an unhashed multipart, so a
group whose multipart members are all hashed is skipped entirely. -/
theorem c1_pass3_streams_candidate_groups (objs : List ObjectInfo) (r : ObjectInfo) :
    r ∈ pass3_objects objs ↔
      (r ∈ objs ∧ isSizeDup objs r.size = true ∧
        ∃ o ∈ objs, o.size = r.size ∧ o.is_multipart = true ∧ o.sha256 = none) := by
  unfold pass3_objects find_multipart_candidates
  rw [mem_flatten_groupsBy]
  constructor
  · rintro ⟨hmem, -⟩
    rw [List.mem_filter] at hmem
    obtain ⟨hobjs, hcand⟩ := hmem
    unfold isCandSize at hcand
    rw [Bool.and_eq_true, List.any_eq_true] at hcand
    obtain ⟨⟨o, ho, hop⟩, hdup⟩ := hcand
    simp only [Bool.and_eq_true, decide_eq_true_eq] at hop
    exact ⟨hobjs, hdup, o, ho, hop.1.1, hop.1.2, hop.2⟩
  · rintro ⟨hobjs, hdup, o, ho, hsz, hmp, hsha⟩
    have hcand : isCandSize objs r.size = true := by
      unfold isCandSize
      rw [Bool.and_eq_true, List.any_eq_true]
      exact ⟨⟨o, ho, by simp [hsz, hmp, hsha]⟩, hdup⟩
    constructor
    · rw [List.mem_filter]
      exact ⟨hobjs, hcand⟩
    · rw [List.countP_filter]
      have : ∀ p ∈ objs,
          ((decide (p.size = r.size) && isCandSize objs p.size) = true ↔
            decide (p.size = r.size) = true) := by
        intro p _
        by_cases hp : p.size = r.size
        · simp [hp, hcand]
        · simp [hp]
      rw [List.countP_congr this]
      unfold isSizeDup at hdup
      rwa [decide_eq_true_eq] at hdup

/-! ## Claim C2: the union returned by get_all_duplicates -/

/-- C2 (counterexample): with two single-part records sharing etag e1 and a
resolved sha256 h1, get_all_duplicates returns both the etag group and the
sha256 group, and record a belongs to both returned groups: the exclusion
rule does not prevent this double-counting. -/
theorem c2_record_in_two_groups :
    get_all_duplicates
      [⟨str "a", 100, str "e1", false, some (str "h1"), 0⟩,
       ⟨str "b", 100, str "e1", false, some (str "h1"), 0⟩] =
    [⟨str "e1", 100,
       [⟨str "a", 100, str "e1", false, some (str "h1"), 0⟩,
        ⟨str "b", 100, str "e1", false, some (str "h1"), 0⟩]⟩,
     ⟨str "h1", 100,
       [⟨str "a", 100, str "e1", false, some (str "h1"), 0⟩,
        ⟨str "b", 100, str "e1", false, some (str "h1"), 0⟩]⟩] ∧
    (⟨str "e1", 100,
       [⟨str "a", 100, str "e1", false, some (str "h1"), 0⟩,
        ⟨str "b", 100, str "e1", false, some (str "h1"), 0⟩]⟩ : DuplicateGroup) ≠
    ⟨str "h1", 100,
       [⟨str "a", 100, str "e1", false, some (str "h1"), 0⟩,
        ⟨str "b", 100, str "e1", false, some (str "h1"), 0⟩]⟩ := by
  constructor
  · decide
  · decide

/-- C2 (amended): get_all_duplicates is the union of the all-single-part
etag groups and the sha256 groups, and within each family no record belongs
to two groups; across the two families a record with a resolved sha256 can
appear in both an etag group and a sha256 group. -/
theorem c2_union_and_family_uniqueness (objs : List ObjectInfo) :
    get_all_duplicates objs =
      (find_etag_duplicates objs).filter
        (fun g => !(g.objects.any (fun o => o.is_multipart))) ++
        find_hash_duplicates objs ∧
    (∀ g1 g2 r, g1 ∈ find_etag_duplicates objs → g2 ∈ find_etag_duplicates objs →
      r ∈ g1.objects → r ∈ g2.objects → g1 = g2) ∧
    (∀ g1 g2 r, g1 ∈ find_hash_duplicates objs → g2 ∈ find_hash_duplicates objs →
      r ∈ g1.objects → r ∈ g2.objects → g1 = g2) := by
  refine ⟨rfl, ?_, ?_⟩
  · intro g1 g2 r h1 h2 hr1 hr2
    unfold find_etag_duplicates at h1 h2
    rw [List.mem_map] at h1 h2
    obtain ⟨raw1, hraw1, rfl⟩ := h1
    obtain ⟨raw2, hraw2, rfl⟩ := h2
    have : raw1 = raw2 := groupsBy_unique _ _ raw1 raw2 r hraw1 hraw2 hr1 hr2
    rw [this]
  · intro g1 g2 r h1 h2 hr1 hr2
    unfold find_hash_duplicates at h1 h2
    rw [List.mem_map] at h1 h2
    obtain ⟨raw1, hraw1, rfl⟩ := h1
    obtain ⟨raw2, hraw2, rfl⟩ := h2
    have : raw1 = raw2 := groupsBy_unique _ _ raw1 raw2 r hraw1 hraw2 hr1 hr2
    rw [this]

/-- C2 (witness): the within-family uniqueness applied at a concrete index
with one etag group, at record a. -/
theorem c2_witness :
    (⟨str "e1", 100,
       [⟨str "a", 100, str "e1", false, none, 0⟩,
        ⟨str "b", 100, str "e1", false, none, 0⟩]⟩ : DuplicateGroup) =
    ⟨str "e1", 100,
       [⟨str "a", 100, str "e1", false, none, 0⟩,
        ⟨str "b", 100, str "e1", false, none, 0⟩]⟩ :=
  (c2_union_and_family_uniqueness
      [⟨str "a", 100, str "e1", false, none, 0⟩,
       ⟨str "b", 100, str "e1", false, none, 0⟩]).2.1
    _ _ (⟨str "a", 100, str "e1", false, none, 0⟩ : ObjectInfo)
    (by decide) (by decide) (by decide) (by decide)

/-! ## Claim C3: deletion scope of a prefixed scan -/

/-- C3 (code bug): get_keys_with_prefix documents that it returns the keys
starting with the prefix, but it builds a SQL LIKE pattern without escaping
wildcards.  Scanning with prefix a_c (underscore is LIKE's any-one-character
wildcard) over an index holding only the key abc1, with a listing that is
empty for that prefix, deletes the record abc1 although its key does not
start with a_c: the scan touches a record outside the scanned subtree. -/
theorem c3_wildcard_deletes_outside_subtree :
    (scan_bucket [⟨str "abc1", 5, str "e", false, none, 0⟩] [] (str "a_c")).1 = [] ∧
    (scan_bucket [⟨str "abc1", 5, str "e", false, none, 0⟩] [] (str "a_c")).2.deleted = 1 ∧
    startsWith (str "a_c") (str "abc1") = false := by
  refine ⟨?_, ?_, ?_⟩
  · decide
  · decide
  · decide

/-! ## Claim C8: etag shape of multipart records -/

/-- C8 (counterexample): the scanner stages, from a listing entry with etag
zz-0, a record with is_multipart true whose etag does not match the spec's
hex-dash-positive-N pattern (zz is not hex and N is 0). -/
theorem c8_multipart_without_hex_dash_n :
    (entryRecord ⟨str "k", 1, str "zz-0", 0⟩) ∈
      scan_staged [] [⟨str "k", 1, str "zz-0", 0⟩] (str "") ∧
    (entryRecord ⟨str "k", 1, str "zz-0", 0⟩).is_multipart = true ∧
    specMultipartEtag (entryRecord ⟨str "k", 1, str "zz-0", 0⟩).etag = false := by
  refine ⟨?_, ?_, ?_⟩
  · decide
  · decide
  · decide

theorem dropWhile_head_false {p : Char → Bool} :
    ∀ (l : Str) (y : Char) (ys : Str), l.dropWhile p = y :: ys → p y = false := by
  intro l
  induction l with
  | nil => intro y ys h; simp at h
  | cons c rest ih =>
    intro y ys h
    rw [List.dropWhile_cons] at h
    by_cases hc : p c = true
    · rw [if_pos hc] at h
      exact ih y ys h
    · rw [if_neg hc] at h
      cases h
      exact Bool.eq_false_iff.2 hc

/-- The decomposition behind is_multipart_etag: when it accepts an etag, the
quote-stripped etag splits at its last dash into a prefix and a non-empty
digit tail. -/
theorem multipart_etag_shape (e : Str) (h : is_multipart_etag e = true) :
    ∃ pre d, stripQuotes e = pre ++ '-' :: d ∧ d ≠ [] ∧ d.all pyIsDigitCh = true := by
  unfold is_multipart_etag at h
  rw [Bool.and_eq_true, Bool.and_eq_true] at h
  obtain ⟨hdash, hne, hdig⟩ := h
  rw [List.any_eq_true] at hdash
  obtain ⟨c, hc, hceq⟩ := hdash
  rw [decide_eq_true_eq] at hceq
  subst hceq
  set clean := stripQuotes e with hclean
  set p : Char → Bool := fun c => decide (c ≠ '-') with hp
  have hsplit : clean.reverse.takeWhile p ++ clean.reverse.dropWhile p = clean.reverse :=
    List.takeWhile_append_dropWhile p clean.reverse
  have hdrop : clean.reverse.dropWhile p ≠ [] := by
    intro hnil
    rw [hnil, List.append_nil] at hsplit
    have hmem : '-' ∈ clean.reverse.takeWhile p := by
      rw [hsplit, List.mem_reverse]; exact hc
    have := List.mem_takeWhile_imp hmem
    simp [hp] at this
  obtain ⟨y, ys, hys⟩ := List.exists_cons_of_ne_nil hdrop
  have hy : p y = false := dropWhile_head_false clean.reverse y ys hys
  have hy2 : y = '-' := by
    simpa [hp] using hy
  subst hy2
  refine ⟨ys.reverse, afterLastDash clean, ?_, ?_, ?_⟩
  · unfold afterLastDash
    conv_lhs => rw [← clean.reverse_reverse, ← hsplit, hys]
    rw [List.reverse_append, List.reverse_cons, List.append_assoc]
    rfl
  · intro hnil
    rw [hnil] at hne
    simp at hne
  · exact hdig

/-- C8 (amended): for every record the scanner stages from a listing entry,
if its is_multipart field is true then its etag, stripped of surrounding
double quotes, ends in a dash followed by a non-empty run of digit
characters; the hex shape of the part before the dash and the positivity of
N are not guaranteed. -/
theorem c8_multipart_etag_digit_tail (db : List ObjectInfo) (listing : List ListingEntry)
    (pfx : Str) (r : ObjectInfo) (hr : r ∈ scan_staged db listing pfx)
    (hmp : r.is_multipart = true) :
    ∃ pre d, stripQuotes r.etag = pre ++ '-' :: d ∧ d ≠ [] ∧ d.all pyIsDigitCh = true := by
  unfold scan_staged at hr
  rw [List.mem_map] at hr
  obtain ⟨e, -, rfl⟩ := hr
  exact multipart_etag_shape e.etag hmp

/-- C8 (witness): the amended theorem at a staged record with a well-formed
quoted multipart etag. -/
theorem c8_witness :
    ∃ pre d,
      stripQuotes (entryRecord ⟨str "k", 7, str "\"abc-3\"", 0⟩).etag = pre ++ '-' :: d ∧
        d ≠ [] ∧ d.all pyIsDigitCh = true :=
  c8_multipart_etag_digit_tail [] [⟨str "k", 7, str "\"abc-3\"", 0⟩] (str "")
    (entryRecord ⟨str "k", 7, str "\"abc-3\"", 0⟩) (by decide) (by decide)

/-! ## Claim C9: upsert idempotence -/

theorem lookupRow_map_replace_ne (now : Int) (o : ObjectInfo) (k : Str) (hk : o.key ≠ k) :
    ∀ db : List StoredRow,
      lookupRow k (db.map (fun r => if r.obj.key = o.key then ⟨o, now⟩ else r)) =
        lookupRow k db := by
  intro db
  induction db with
  | nil => rfl
  | cons r rest ih =>
    by_cases hr : r.obj.key = o.key
    · simp only [List.map_cons, if_pos hr, lookupRow]
      rw [if_neg hk, if_neg (hr ▸ hk), ih]
    · simp only [List.map_cons, if_neg hr, lookupRow, ih]

theorem lookupRow_map_replace_eq (now : Int) (o : ObjectInfo) :
    ∀ db : List StoredRow, (∃ r ∈ db, r.obj.key = o.key) →
      lookupRow o.key (db.map (fun r => if r.obj.key = o.key then ⟨o, now⟩ else r)) =
        some ⟨o, now⟩ := by
  intro db
  induction db with
  | nil => rintro ⟨r, hr, -⟩; simp at hr
  | cons r rest ih =>
    rintro ⟨r2, hr2, hkey⟩
    by_cases hr : r.obj.key = o.key
    · simp [List.map_cons, if_pos hr, lookupRow]
    · simp only [List.map_cons, if_neg hr, lookupRow, if_neg hr]
      rcases List.mem_cons.1 hr2 with h | h
      · exact absurd (h ▸ hkey) hr
      · exact ih ⟨r2, h, hkey⟩

theorem lookupRow_append (k : Str) (a b : List StoredRow) :
    lookupRow k (a ++ b) =
      match lookupRow k a with
      | some r => some r
      | none => lookupRow k b := by
  induction a with
  | nil => simp [lookupRow]
  | cons r rest ih =>
    by_cases hr : r.obj.key = k
    · simp [lookupRow, if_pos hr]
    · simp [lookupRow, if_neg hr, ih]

theorem lookupRow_none_of_no_key (k : Str) :
    ∀ db : List StoredRow, (¬ ∃ r ∈ db, r.obj.key = k) → lookupRow k db = none := by
  intro db
  induction db with
  | nil => intro; rfl
  | cons r rest ih =>
    intro h
    have hr : r.obj.key ≠ k := fun he => h ⟨r, by simp, he⟩
    simp only [lookupRow, if_neg hr]
    exact ih (fun ⟨r2, hr2, he⟩ => h ⟨r2, by simp [hr2], he⟩)

/-- Lookup through one insert-or-replace step. -/
theorem lookupRow_upsertOne (now : Int) (db : List StoredRow) (o : ObjectInfo) (k : Str) :
    lookupRow k (upsertOne now db o) =
      if o.key = k then some ⟨o, now⟩ else lookupRow k db := by
  unfold upsertOne
  by_cases hany : db.any (fun r => decide (r.obj.key = o.key)) = true
  · rw [if_pos hany]
    rw [List.any_eq_true] at hany
    obtain ⟨r, hr, hkey⟩ := hany
    rw [decide_eq_true_eq] at hkey
    by_cases hk : o.key = k
    · subst hk
      rw [if_pos rfl]
      exact lookupRow_map_replace_eq now o db ⟨r, hr, hkey⟩
    · rw [if_neg hk]
      exact lookupRow_map_replace_ne now o k hk db
  · rw [if_neg hany]
    rw [lookupRow_append]
    by_cases hk : o.key = k
    · subst hk
      have : lookupRow o.key db = none := by
        apply lookupRow_none_of_no_key
        rintro ⟨r, hr, hkey⟩
        exact hany (List.any_eq_true.2 ⟨r, hr, by simp [hkey]⟩)
      rw [this]
      simp [lookupRow]
    · by_cases hdb : lookupRow k db = none
      · rw [hdb]
        simp [lookupRow, if_neg hk, if_neg fun h => hk h]
      · obtain ⟨r, hr⟩ := Option.ne_none_iff_exists'.1 hdb
        rw [hr]
        simp [if_neg hk]

/-- Lookup after a whole batch: the last batch row with the key wins, rows
with other keys are untouched. -/
theorem lookupRow_upsert (now : Int) (B : List ObjectInfo) :
    ∀ (db : List StoredRow) (k : Str),
      lookupRow k (upsert_objects now db B) =
        match lastWith k B with
        | some o => some ⟨o, now⟩
        | none => lookupRow k db := by
  induction B with
  | nil => intro db k; rfl
  | cons o rest ih =>
    intro db k
    show lookupRow k (upsert_objects now (upsertOne now db o) rest) = _
    rw [ih]
    cases hrest : lastWith k rest with
    | some r =>
      simp only [lastWith, hrest]
    | none =>
      simp only [lastWith, hrest]
      rw [lookupRow_upsertOne]
      by_cases hk : o.key = k
      · simp [hk]
      · simp [if_neg hk, if_neg fun h => hk h]

theorem keysRow_upsertOne (now : Int) (db : List StoredRow) (o : ObjectInfo) :
    keysRow (upsertOne now db o) = insertKey (keysRow db) o.key := by
  unfold insertKey
  unfold upsertOne
  have hmem : db.any (fun r => decide (r.obj.key = o.key)) = true ↔ o.key ∈ keysRow db := by
    rw [List.any_eq_true]
    unfold keysRow
    rw [List.mem_map]
    constructor
    · rintro ⟨r, hr, hkey⟩
      rw [decide_eq_true_eq] at hkey
      exact ⟨r, hr, hkey⟩
    · rintro ⟨r, hr, hkey⟩
      exact ⟨r, hr, by simp [hkey]⟩
  by_cases hany : db.any (fun r => decide (r.obj.key = o.key)) = true
  · rw [if_pos hany, if_pos (hmem.1 hany)]
    unfold keysRow
    rw [List.map_map]
    apply List.map_congr_left
    intro r _
    by_cases hr : r.obj.key = o.key
    · simp [hr]
    · simp [hr]
  · rw [if_neg hany, if_neg (fun h => hany (hmem.2 h))]
    unfold keysRow
    simp

theorem keysRow_upsert (now : Int) (B : List ObjectInfo) :
    ∀ db : List StoredRow,
      keysRow (upsert_objects now db B) =
        (B.map (fun o => o.key)).foldl insertKey (keysRow db) := by
  induction B with
  | nil => intro db; rfl
  | cons o rest ih =>
    intro db
    show keysRow (upsert_objects now (upsertOne now db o) rest) = _
    rw [ih, keysRow_upsertOne, List.map_cons, List.foldl_cons]

theorem mem_keysRow_upsert (now : Int) (B : List ObjectInfo) (db : List StoredRow)
    (o : ObjectInfo) (ho : o ∈ B) : o.key ∈ keysRow (upsert_objects now db B) := by
  rw [keysRow_upsert]
  exact (mem_foldl_insert _ _ _).2 (Or.inr (List.mem_map_of_mem _ ho))

/-- C9 (confirmed): upserting the same batch twice leaves the index
observationally equal to upserting it once at the later time: every key
looks up to the same row and the table holds the same keys in the same
order.  (Each run stamps scanned_at with its own now; the double run ends
with the second stamp, as the single run does.) -/
theorem c9_upsert_idempotent (db : List StoredRow) (B : List ObjectInfo) (t1 t2 : Int) :
    (∀ k, lookupRow k (upsert_objects t2 (upsert_objects t1 db B) B) =
      lookupRow k (upsert_objects t2 db B)) ∧
    keysRow (upsert_objects t2 (upsert_objects t1 db B) B) =
      keysRow (upsert_objects t2 db B) := by
  constructor
  · intro k
    simp only [lookupRow_upsert]
    cases hB : lastWith k B <;> simp [hB]
  · rw [keysRow_upsert, keysRow_upsert, keysRow_upsert]
    apply foldl_insert_absorb
    intro v hv
    rw [mem_foldl_insert]
    exact Or.inr hv

/-! ## Claim C10: the suffix search loop -/

theorem digitChar_toNat (m : Nat) (hm : m < 10) : (Nat.digitChar m).toNat = m + 48 := by
  interval_cases m <;> rfl

theorem fromDecimal_append_one (a : Str) (c : Char) :
    fromDecimal (a ++ [c]) = fromDecimal a * 10 + (c.toNat - 48) := by
  unfold fromDecimal
  rw [List.foldl_append]
  rfl

theorem toDecimalAux_spec : ∀ (f n : Nat), n < f → fromDecimal (toDecimalAux f n) = n := by
  intro f
  induction f with
  | zero => intro n h; omega
  | succ f ih =>
    intro n h
    unfold toDecimalAux
    by_cases h10 : n < 10
    · rw [if_pos h10]
      show fromDecimal [Nat.digitChar n] = n
      unfold fromDecimal
      simp [digitChar_toNat n h10]
    · rw [if_neg h10]
      rw [fromDecimal_append_one]
      have hlt : n / 10 < f := by
        have := Nat.div_lt_self (by omega : 0 < n) (by omega : 1 < 10)
        omega
      rw [ih (n / 10) hlt]
      have hmod : n % 10 < 10 := Nat.mod_lt n (by omega)
      rw [digitChar_toNat (n % 10) hmod]
      have := Nat.div_add_mod n 10
      omega

theorem toDecimal_inj : Function.Injective toDecimal := by
  intro m n h
  have hm := toDecimalAux_spec (m + 1) m (by omega)
  have hn := toDecimalAux_spec (n + 1) n (by omega)
  unfold toDecimal at h
  rw [h] at hm
  rw [hn] at hm
  omega

theorem suffixedName_inj (root ext : Str) : Function.Injective (suffixedName root ext) := by
  intro m n h
  unfold suffixedName at h
  have h1 := List.append_cancel_left h
  rw [List.cons_inj_right] at h1
  exact toDecimal_inj (List.append_cancel_right h1)

theorem suffixed_exists_free (root ext : Str) (taken : List Str) :
    ∃ j < taken.length + 1, suffixedName root ext (2 + j) ∉ taken := by
  by_contra hcon
  push_neg at hcon
  set L := (List.range (taken.length + 1)).map (fun j => suffixedName root ext (2 + j)) with hL
  have hnd : L.Nodup := by
    apply List.Nodup.map
    · intro a b hab
      have := suffixedName_inj root ext hab
      omega
    · exact List.nodup_range _
  have hsub : ∀ x ∈ L, x ∈ taken := by
    intro x hx
    rw [hL, List.mem_map] at hx
    obtain ⟨j, hj, rfl⟩ := hx
    exact hcon j (List.mem_range.1 hj)
  have hcard1 : L.toFinset.card = L.length := List.toFinset_card_of_nodup hnd
  have hcard2 : L.toFinset ⊆ taken.toFinset := by
    intro x hx
    rw [List.mem_toFinset] at hx ⊢
    exact hsub x hx
  have hcard3 : taken.toFinset.card ≤ taken.length := taken.toFinset_card_le
  have hlen : L.length = taken.length + 1 := by
    rw [hL, List.length_map, List.length_range]
  have := Finset.card_le_card hcard2
  omega

theorem suffixedFuel_spec (root ext : Str) (taken : List Str) :
    ∀ (f n0 : Nat), (∃ j < f, suffixedName root ext (n0 + j) ∉ taken) →
      ∃ m, n0 ≤ m ∧ suffixedFuel root ext taken f n0 = suffixedName root ext m ∧
        suffixedName root ext m ∉ taken := by
  intro f
  induction f with
  | zero => rintro n0 ⟨j, hj, -⟩; omega
  | succ f ih =>
    rintro n0 ⟨j, hj, hfree⟩
    unfold suffixedFuel
    by_cases hmem : suffixedName root ext n0 ∈ taken
    · rw [if_pos hmem]
      have hj0 : j ≠ 0 := by
        rintro rfl
        exact hfree (by simpa using hmem)
      obtain ⟨m, hm1, hm2, hm3⟩ := ih (n0 + 1)
        ⟨j - 1, by omega, by
          have : n0 + 1 + (j - 1) = n0 + j := by omega
          rw [this]; exact hfree⟩
      exact ⟨m, by omega, hm2, hm3⟩
    · rw [if_neg hmem]
      exact ⟨n0, le_refl n0, rfl, hmem⟩

/-- Full behaviour of the suffix search: it returns root_n  ext for some n
at least 2 (root and ext the splitext halves of the target), free of the
taken set. -/
theorem suffixed_spec (target : Str) (taken : List Str) :
    ∃ n, 2 ≤ n ∧
      suffixed target taken = suffixedName (splitext target).1 (splitext target).2 n ∧
      suffixed target taken ∉ taken := by
  obtain ⟨j, hj, hfree⟩ := suffixed_exists_free (splitext target).1 (splitext target).2 taken
  obtain ⟨m, hm1, hm2, hm3⟩ := suffixedFuel_spec (splitext target).1 (splitext target).2 taken
    (taken.length + 1) 2 ⟨j, hj, hfree⟩
  have he : suffixed target taken = suffixedName (splitext target).1 (splitext target).2 m := hm2
  exact ⟨m, hm1, he, by rw [he]; exact hm3⟩

/-- The returned suffixed name is never already taken. -/
theorem suffixed_not_mem (target : Str) (taken : List Str) :
    suffixed target taken ∉ taken := by
  obtain ⟨n, -, -, h⟩ := suffixed_spec target taken
  exact h

/-- C10 (confirmed): for every target string and finite taken set, the
suffix search loop of cleaner._suffixed terminates and returns a name of
the form root underscore n ext with n at least 2 that is not in the taken
set. -/
theorem c10_suffix_search_terminates_free (target : Str) (taken : List Str) :
    ∃ n, 2 ≤ n ∧
      suffixed target taken = suffixedName (splitext target).1 (splitext target).2 n ∧
      suffixed target taken ∉ taken :=
  suffixed_spec target taken

/-! ## Claim C7: the conflict-resolved rename plan -/

theorem mem_insertSorted (x y : Str) (l : List Str) :
    y ∈ insertSorted x l ↔ y = x ∨ y ∈ l := by
  induction l with
  | nil => simp [insertSorted]
  | cons z zs ih =>
    unfold insertSorted
    by_cases h : strLe x z = true
    · rw [if_pos h]
      simp
    · rw [if_neg h]
      simp only [List.mem_cons, ih]
      tauto

theorem mem_sortStrs (x : Str) (l : List Str) : x ∈ sortStrs l ↔ x ∈ l := by
  induction l with
  | nil => simp [sortStrs]
  | cons z zs ih =>
    show x ∈ insertSorted z (sortStrs zs) ↔ _
    rw [mem_insertSorted, ih, List.mem_cons]

theorem nodup_insertSorted (x : Str) (l : List Str) (hx : x ∉ l) (hl : l.Nodup) :
    (insertSorted x l).Nodup := by
  induction l with
  | nil => simp [insertSorted]
  | cons z zs ih =>
    unfold insertSorted
    rw [List.nodup_cons] at hl
    by_cases h : strLe x z = true
    · rw [if_pos h, List.nodup_cons, List.nodup_cons]
      exact ⟨by simpa using hx, hl⟩
    · rw [if_neg h, List.nodup_cons]
      constructor
      · rw [mem_insertSorted]
        rintro (rfl | hz)
        · exact hx (by simp)
        · exact hl.1 hz
      · exact ih (fun hm => hx (by simp [hm])) hl.2

theorem nodup_sortStrs (l : List Str) (hl : l.Nodup) : (sortStrs l).Nodup := by
  induction l with
  | nil => simp [sortStrs]
  | cons z zs ih =>
    rw [List.nodup_cons] at hl
    exact nodup_insertSorted z (sortStrs zs)
      (fun hm => hl.1 ((mem_sortStrs z zs).1 hm)) (ih hl.2)

theorem nodup_uniqKeys {κ : Type} [DecidableEq κ] (l : List κ) : (uniqKeys l).Nodup := by
  have aux : ∀ (l : List κ) (acc : List κ), acc.Nodup → (l.foldl insertKey acc).Nodup := by
    intro l
    induction l with
    | nil => intro acc h; exact h
    | cons x xs ih =>
      intro acc h
      simp only [List.foldl_cons]
      apply ih
      unfold insertKey
      by_cases hx : x ∈ acc
      · rwa [if_pos hx]
      · rw [if_neg hx]
        simp [List.nodup_append, h, hx]
  exact aux l [] (by simp)

/-- A source string belongs to the t-bucket of targetGroups exactly when the
pair (s, t) is one of the renames. -/
theorem mem_targetGroup_sources (renames : List (Str × Str)) (t : Str) (s : Str) :
    s ∈ (renames.filter (fun p => decide (p.2 = t))).map Prod.fst ↔ (s, t) ∈ renames := by
  rw [List.mem_map]
  constructor
  · rintro ⟨p, hp, rfl⟩
    rw [List.mem_filter, decide_eq_true_eq] at hp
    have : p = (p.1, t) := by
      rw [← hp.2]
    rw [← this]
    exact hp.1
  · intro h
    exact ⟨(s, t), List.mem_filter.2 ⟨h, by simp⟩, rfl⟩

/-- With distinct sources each source carries one target. -/
theorem target_unique (renames : List (Str × Str)) (hnd : (renames.map Prod.fst).Nodup)
    (s t1 t2 : Str) (h1 : (s, t1) ∈ renames) (h2 : (s, t2) ∈ renames) : t1 = t2 := by
  induction renames with
  | nil => simp at h1
  | cons p rest ih =>
    rw [List.map_cons, List.nodup_cons] at hnd
    rcases List.mem_cons.1 h1 with rfl | h1r
    · rcases List.mem_cons.1 h2 with h | h2r
      · injection h with h3 h4
        exact h4.symm
      · exact absurd (List.mem_map_of_mem Prod.fst h2r) hnd.1
    · rcases List.mem_cons.1 h2 with rfl | h2r
      · exact absurd (List.mem_map_of_mem Prod.fst h1r) hnd.1
      · exact ih hnd.2 h1r h2r

theorem assignSources_fst (t : Str) :
    ∀ (srcs : List Str) (first : Bool) (taken : List Str) (acc : List (Str × Str)),
      (assignSources t first taken acc srcs).2.map Prod.fst = acc.map Prod.fst ++ srcs := by
  intro srcs
  induction srcs with
  | nil => intro first taken acc; simp [assignSources]
  | cons s rest ih =>
    intro first taken acc
    unfold assignSources
    rw [ih]
    simp

theorem assignSources_inv (t : Str) (taken0 : List Str) :
    ∀ (srcs : List Str) (first : Bool) (taken : List Str) (acc : List (Str × Str)),
      (∀ k ∈ taken0, k ∈ taken) →
      (∀ p ∈ acc, p.2 ∈ taken) →
      (acc.map Prod.snd).Nodup →
      (∀ p ∈ acc, p.2 ∉ taken0) →
      ((∀ k ∈ taken, k ∈ (assignSources t first taken acc srcs).1) ∧
        (∀ p ∈ (assignSources t first taken acc srcs).2,
          p.2 ∈ (assignSources t first taken acc srcs).1) ∧
        ((assignSources t first taken acc srcs).2.map Prod.snd).Nodup ∧
        (∀ p ∈ (assignSources t first taken acc srcs).2, p.2 ∉ taken0)) := by
  intro srcs
  induction srcs with
  | nil =>
    intro first taken acc h0 h1 h2 h3
    exact ⟨fun k hk => hk, h1, h2, h3⟩
  | cons s rest ih =>
    intro first taken acc h0 h1 h2 h3
    unfold assignSources
    set cand := if first && decide (t ∉ taken) then t else suffixed t taken with hcand
    have hfree : cand ∉ taken := by
      rw [hcand]
      by_cases hc : (first && decide (t ∉ taken)) = true
      · rw [if_pos hc]
        rw [Bool.and_eq_true, decide_eq_true_eq] at hc
        exact hc.2
      · rw [if_neg hc]
        exact suffixed_not_mem t taken
    have h0' : ∀ k ∈ taken0, k ∈ cand :: taken := fun k hk => by simp [h0 k hk]
    have h1' : ∀ p ∈ acc ++ [(s, cand)], p.2 ∈ cand :: taken := by
      intro p hp
      rcases List.mem_append.1 hp with h | h
      · simp [h1 p h]
      · rw [List.mem_singleton] at h
        subst h
        simp
    have h2' : ((acc ++ [(s, cand)]).map Prod.snd).Nodup := by
      rw [List.map_append]
      simp only [List.map_cons, List.map_nil]
      rw [List.nodup_append]
      refine ⟨h2, by simp, ?_⟩
      intro x hx
      simp only [List.mem_singleton]
      rw [List.mem_map] at hx
      obtain ⟨p, hp, rfl⟩ := hx
      intro he
      exact hfree (he ▸ h1 p hp)
    have h3' : ∀ p ∈ acc ++ [(s, cand)], p.2 ∉ taken0 := by
      intro p hp
      rcases List.mem_append.1 hp with h | h
      · exact h3 p h
      · rw [List.mem_singleton] at h
        subst h
        intro hk
        exact hfree (h0 _ hk)

    obtain ⟨g0, g1, g2, g3⟩ := ih false (cand :: taken) (acc ++ [(s, cand)]) h0' h1' h2' h3'
    exact ⟨fun k hk => g0 k (by simp [hk]), g1, g2, g3⟩

theorem resolveLoop_inv (taken0 : List Str) :
    ∀ (gs : List (Str × List Str)) (taken : List Str) (acc : List (Str × Str)),
      (∀ k ∈ taken0, k ∈ taken) →
      (∀ p ∈ acc, p.2 ∈ taken) →
      (acc.map Prod.snd).Nodup →
      (∀ p ∈ acc, p.2 ∉ taken0) →
      (((gs.foldl (fun a tg => assignSources tg.1 true a.1 a.2 (sortStrs tg.2))
          (taken, acc)).2.map Prod.snd).Nodup ∧
        (∀ p ∈ (gs.foldl (fun a tg => assignSources tg.1 true a.1 a.2 (sortStrs tg.2))
          (taken, acc)).2, p.2 ∉ taken0)) := by
  intro gs
  induction gs with
  | nil =>
    intro taken acc h0 h1 h2 h3
    exact ⟨h2, h3⟩
  | cons tg rest ih =>
    intro taken acc h0 h1 h2 h3
    simp only [List.foldl_cons]
    obtain ⟨g0, g1, g2, g3⟩ := assignSources_inv tg.1 taken0 (sortStrs tg.2) true taken acc
      h0 h1 h2 h3
    exact ih _ _ (fun k hk => g0 k (h0 k hk)) g1 g2 g3

theorem resolveLoop_fst :
    ∀ (gs : List (Str × List Str)) (taken : List Str) (acc : List (Str × Str)),
      (gs.foldl (fun a tg => assignSources tg.1 true a.1 a.2 (sortStrs tg.2))
          (taken, acc)).2.map Prod.fst =
        acc.map Prod.fst ++ (gs.map (fun tg => sortStrs tg.2)).flatten := by
  intro gs
  induction gs with
  | nil => intro taken acc; simp
  | cons tg rest ih =>
    intro taken acc
    simp only [List.foldl_cons, List.map_cons, List.flatten_cons]
    rw [ih, assignSources_fst, List.append_assoc]

/-- C7 (confirmed): over any rename map with distinct sources and any set
of existing keys, the conflict-resolved plan assigns exactly one target to
every source (the plan's sources are exactly the map's sources, each once),
all assigned targets are pairwise distinct, and no assigned target equals
an existing key that is not itself a rename source. -/
theorem c7_rename_plan_totality (renames : List (Str × Str)) (existing : List Str)
    (hnd : (renames.map Prod.fst).Nodup) :
    ((resolve_conflicts renames existing).map Prod.fst).Nodup ∧
    (∀ s, s ∈ (resolve_conflicts renames existing).map Prod.fst ↔
      s ∈ renames.map Prod.fst) ∧
    ((resolve_conflicts renames existing).map Prod.snd).Nodup ∧
    (∀ p ∈ resolve_conflicts renames existing, p.2 ∈ existing →
      p.2 ∈ renames.map Prod.fst) := by
  set sources := renames.map Prod.fst with hsources
  set taken0 := existing.filter (fun k => decide (k ∉ sources)) with htaken0
  have hres : resolve_conflicts renames existing =
      ((targetGroups renames).foldl
        (fun acc tg => assignSources tg.1 true acc.1 acc.2 (sortStrs tg.2))
        (taken0, [])).2 := rfl
  have hkeys : (resolve_conflicts renames existing).map Prod.fst =
      ((targetGroups renames).map (fun tg => sortStrs tg.2)).flatten := by
    rw [hres, resolveLoop_fst]
    simp
  have hgroups : (targetGroups renames).map (fun tg => sortStrs tg.2) =
      (uniqKeys (renames.map Prod.snd)).map
        (fun t => sortStrs ((renames.filter (fun p => decide (p.2 = t))).map Prod.fst)) := by
    unfold targetGroups
    rw [List.map_map]
    rfl
  refine ⟨?_, ?_, ?_, ?_⟩
  · rw [hkeys]
    rw [List.nodup_flatten]
    constructor
    · intro l hl
      rw [hgroups, List.mem_map] at hl
      obtain ⟨t, -, rfl⟩ := hl
      apply nodup_sortStrs
      exact ((List.filter_sublist renames).map Prod.fst).nodup hnd
    · rw [hgroups]
      rw [List.pairwise_map]
      have hu : (uniqKeys (renames.map Prod.snd)).Nodup := nodup_uniqKeys _
      apply List.Pairwise.imp_of_mem ?_ hu
      intro t1 t2 hm1 hm2 hne
      intro s hs1 hs2
      rw [mem_sortStrs, mem_targetGroup_sources] at hs1 hs2
      exact hne (target_unique renames hnd s t1 t2 hs1 hs2)
  · intro s
    rw [hsources, hkeys, List.mem_flatten]
    constructor
    · rintro ⟨l, hl, hs⟩
      rw [hgroups, List.mem_map] at hl
      obtain ⟨t, -, rfl⟩ := hl
      rw [mem_sortStrs, mem_targetGroup_sources] at hs
      exact List.mem_map_of_mem Prod.fst hs
    · intro hs
      rw [List.mem_map] at hs
      obtain ⟨p, hp, rfl⟩ := hs
      refine ⟨sortStrs ((renames.filter (fun q => decide (q.2 = p.2))).map Prod.fst), ?_, ?_⟩
      · rw [hgroups, List.mem_map]
        exact ⟨p.2, (mem_uniqKeys _ _).2 (List.mem_map_of_mem Prod.snd hp), rfl⟩
      · rw [mem_sortStrs, mem_targetGroup_sources]
        exact Prod.mk.eta ▸ hp
  · rw [hres]
    exact (resolveLoop_inv taken0 (targetGroups renames) taken0 []
      (fun k hk => hk) (by simp) (by simp) (by simp)).1
  · intro p hp hex
    have hnot : p.2 ∉ taken0 := by
      rw [hres] at hp
      exact (resolveLoop_inv taken0 (targetGroups renames) taken0 []
        (fun k hk => hk) (by simp) (by simp) (by simp)).2 p hp
    by_contra hsrc
    apply hnot
    rw [htaken0, List.mem_filter]
    exact ⟨hex, by simpa [hsources] using hsrc⟩

/-- C7 (witness): the plan properties at the repository's own conflict
test case, one rename colliding with an existing key. -/
theorem c7_witness :
    ((resolve_conflicts [(str " photo.jpg", str "photo.jpg")]
        [str " photo.jpg", str "photo.jpg"]).map Prod.fst).Nodup ∧
    (∀ s, s ∈ (resolve_conflicts [(str " photo.jpg", str "photo.jpg")]
        [str " photo.jpg", str "photo.jpg"]).map Prod.fst ↔
      s ∈ [(str " photo.jpg", str "photo.jpg")].map Prod.fst) ∧
    ((resolve_conflicts [(str " photo.jpg", str "photo.jpg")]
        [str " photo.jpg", str "photo.jpg"]).map Prod.snd).Nodup ∧
    (∀ p ∈ resolve_conflicts [(str " photo.jpg", str "photo.jpg")]
        [str " photo.jpg", str "photo.jpg"], p.2 ∈ [str " photo.jpg", str "photo.jpg"] →
      p.2 ∈ [(str " photo.jpg", str "photo.jpg")].map Prod.fst) :=
  c7_rename_plan_totality [(str " photo.jpg", str "photo.jpg")]
    [str " photo.jpg", str "photo.jpg"] (by decide)

/-! ## Claim C6: the retention selector -/

theorem lexLt_irrefl : ∀ xs : List Int, lexLt xs xs = false := by
  intro xs
  induction xs with
  | nil => rfl
  | cons x rest ih =>
    unfold lexLt
    simp [ih]

theorem lexLt_trans :
    ∀ xs ys zs : List Int, lexLt xs ys = true → lexLt ys zs = true → lexLt xs zs = true := by
  intro xs
  induction xs with
  | nil =>
    intro ys zs h1 h2
    cases ys with
    | nil => exact absurd h1 (by simp [lexLt])
    | cons y ys2 =>
      cases zs with
      | nil => exact absurd h2 (by simp [lexLt])
      | cons z zs2 => rfl
  | cons x xs2 ih =>
    intro ys zs h1 h2
    cases ys with
    | nil => exact absurd h1 (by simp [lexLt])
    | cons y ys2 =>
      cases zs with
      | nil => exact absurd h2 (by simp [lexLt])
      | cons z zs2 =>
        unfold lexLt at h1 h2 ⊢
        rw [Bool.or_eq_true, Bool.and_eq_true, decide_eq_true_eq, decide_eq_true_eq] at h1 h2 ⊢
        rcases h1 with h1 | ⟨he1, h1⟩
        · rcases h2 with h2 | ⟨he2, h2⟩
          · exact Or.inl (lt_trans h1 h2)
          · exact Or.inl (he2 ▸ h1)
        · rcases h2 with h2 | ⟨he2, h2⟩
          · exact Or.inl (he1 ▸ h2)
          · exact Or.inr ⟨he1.trans he2, ih ys2 zs2 h1 h2⟩

theorem lexLt_total_eq :
    ∀ xs ys : List Int, xs.length = ys.length →
      lexLt xs ys = false → lexLt ys xs = false → xs = ys := by
  intro xs
  induction xs with
  | nil =>
    intro ys hlen h1 h2
    cases ys with
    | nil => rfl
    | cons y ys2 => simp at hlen
  | cons x xs2 ih =>
    intro ys hlen h1 h2
    cases ys with
    | nil => simp at hlen
    | cons y ys2 =>
      unfold lexLt at h1 h2
      rw [Bool.or_eq_false_iff, Bool.and_eq_false_iff] at h1 h2
      have hxy : x = y := by
        rcases h1 with ⟨ha, -⟩
        rcases h2 with ⟨hb, -⟩
        rw [decide_eq_false_iff_not] at ha hb
        omega
      subst hxy
      have hrest : xs2 = ys2 := by
        apply ih ys2 (by simpa using hlen)
        · rcases h1.2 with h | h
          · simp at h
          · exact h
        · rcases h2.2 with h | h
          · simp at h
          · exact h
      rw [hrest]

theorem strLt_irrefl : ∀ a : Str, strLt a a = false := by
  intro a
  induction a with
  | nil => rfl
  | cons c rest ih =>
    unfold strLt
    rw [if_pos rfl]
    exact ih

theorem strLt_ne (a b : Str) (h : strLt a b = true) : a ≠ b := by
  rintro rfl
  rw [strLt_irrefl] at h
  exact absurd h (by simp)

theorem strLe_refl (a : Str) : strLe a a = true := by
  unfold strLe
  simp

theorem strLe_of_strLt (a b : Str) (h : strLt a b = true) : strLe a b = true := by
  unfold strLe
  simp [h]

/-- Behaviour of Python's min-fold: the running result is either the start
accumulator or a strict improvement from the list; nothing in scope beats
it; on composite-key ties it keeps the string-smallest key provided the
list is strictly sorted by key and every list key exceeds the
accumulator's. -/
theorem pyMin_fold (f : ObjectInfo → List Int) :
    ∀ (xs : List ObjectInfo) (acc : ObjectInfo),
      (∀ o ∈ xs, strLt acc.key o.key = true) →
      xs.Pairwise (fun a b => strLt a.key b.key = true) →
      ((xs.foldl (fun best o => if lexLt (f o) (f best) then o else best) acc = acc ∨
          (xs.foldl (fun best o => if lexLt (f o) (f best) then o else best) acc ∈ xs ∧
            lexLt (f (xs.foldl (fun best o => if lexLt (f o) (f best) then o else best) acc))
              (f acc) = true)) ∧
        (∀ o, (o = acc ∨ o ∈ xs) →
          lexLt (f o)
            (f (xs.foldl (fun best o => if lexLt (f o) (f best) then o else best) acc)) = false) ∧
        (∀ o, (o = acc ∨ o ∈ xs) →
          f o = f (xs.foldl (fun best o => if lexLt (f o) (f best) then o else best) acc) →
          strLe (xs.foldl (fun best o => if lexLt (f o) (f best) then o else best) acc).key
            o.key = true)) := by
  intro xs
  induction xs with
  | nil =>
    intro acc hgt hpw
    refine ⟨Or.inl rfl, ?_, ?_⟩
    · rintro o (rfl | h)
      · exact lexLt_irrefl (f o)
      · simp at h
    · rintro o (rfl | h)
      · intro; exact strLe_refl o.key
      · simp at h
  | cons o2 rest ih =>
    intro acc hgt hpw
    rw [List.pairwise_cons] at hpw
    simp only [List.foldl_cons]
    by_cases hlt : lexLt (f o2) (f acc) = true
    · rw [if_pos hlt]
      have hgt2 : ∀ o ∈ rest, strLt o2.key o.key = true := hpw.1
      obtain ⟨g1, g2, g3⟩ := ih o2 hgt2 hpw.2
      set r := rest.foldl (fun best o => if lexLt (f o) (f best) then o else best) o2 with hr
      refine ⟨?_, ?_, ?_⟩
      · rcases g1 with he | ⟨hm, hl⟩
        · exact Or.inr ⟨by simp [he], he ▸ hlt⟩
        · exact Or.inr ⟨by simp [hm], lexLt_trans _ _ _ hl hlt⟩
      · rintro o (rfl | ho)
        · by_contra hcon
          rw [Bool.not_eq_false] at hcon
          have : lexLt (f o2) (f r) = true := lexLt_trans _ _ _ hlt hcon
          rw [g2 o2 (Or.inl rfl)] at this
          exact absurd this (by simp)
        · rcases List.mem_cons.1 ho with rfl | ho2
          · exact g2 o (Or.inl rfl)
          · exact g2 o (Or.inr ho2)
      · rintro o (rfl | ho)
        · intro heq
          have : lexLt (f o2) (f r) = true := heq ▸ hlt
          rw [g2 o2 (Or.inl rfl)] at this
          exact absurd this (by simp)
        · rcases List.mem_cons.1 ho with rfl | ho2
          · exact g3 o (Or.inl rfl)
          · exact g3 o (Or.inr ho2)
    · rw [if_neg hlt]
      have hgt2 : ∀ o ∈ rest, strLt acc.key o.key = true :=
        fun o ho => hgt o (by simp [ho])
      obtain ⟨g1, g2, g3⟩ := ih acc hgt2 hpw.2
      set r := rest.foldl (fun best o => if lexLt (f o) (f best) then o else best) acc with hr
      refine ⟨?_, ?_, ?_⟩
      · rcases g1 with he | ⟨hm, hl⟩
        · exact Or.inl he
        · exact Or.inr ⟨by simp [hm], hl⟩
      · rintro o (rfl | ho)
        · exact g2 o (Or.inl rfl)
        · rcases List.mem_cons.1 ho with rfl | ho2
          · by_contra hcon
            rw [Bool.not_eq_false] at hcon
            rcases g1 with he | ⟨hm, hl⟩
            · rw [he] at hcon
              exact absurd hcon (by simp [hlt])
            · have : lexLt (f o) (f acc) = true := lexLt_trans _ _ _ hcon hl
              exact absurd this (by simp [hlt])
          · exact g2 o (Or.inr ho2)
      · rintro o (rfl | ho)
        · exact g3 o (Or.inl rfl)
        · rcases List.mem_cons.1 ho with rfl | ho2
          · intro heq
            rcases g1 with he | ⟨hm, hl⟩
            · rw [he]
              exact strLe_of_strLt _ _ (hgt o (by simp))
            · rw [← heq] at hl
              exact absurd hl (by simp [hlt])
          · exact g3 o (Or.inr ho2)

theorem strLt_pairwise_key_nodup (objs : List ObjectInfo)
    (h : objs.Pairwise (fun a b => strLt a.key b.key = true)) :
    (objs.map (fun o => o.key)).Nodup := by
  unfold List.Nodup
  rw [List.pairwise_map]
  exact h.imp (fun hab => strLt_ne _ _ hab)

theorem filter_ne_key_length (objs : List ObjectInfo) (keeper : ObjectInfo)
    (hk : keeper ∈ objs) (hnd : (objs.map (fun o => o.key)).Nodup) :
    (objs.filter (fun o => decide (o.key ≠ keeper.key))).length + 1 = objs.length := by
  induction objs with
  | nil => simp at hk
  | cons o rest ih =>
    rw [List.map_cons, List.nodup_cons] at hnd
    rcases List.mem_cons.1 hk with rfl | hk2
    · rw [List.filter_cons]
      rw [if_neg (by simp)]
      have hall : rest.filter (fun p => decide (p.key ≠ keeper.key)) = rest := by
        apply List.filter_eq_self.2
        intro p hp
        rw [decide_eq_true_eq]
        intro he
        exact hnd.1 (he ▸ List.mem_map_of_mem (fun o => o.key) hp)
      rw [hall]
      simp
    · rw [List.filter_cons]
      have hne : o.key ≠ keeper.key := by
        intro he
        exact hnd.1 (he ▸ List.mem_map_of_mem (fun o => o.key) hk2)
      rw [if_pos (by simp [hne])]
      have := ih hk2 hnd.2
      simp only [List.length_cons]
      omega

/-- C6 (counterexample): the claim says ties in the composite key are
broken by key string ascending.  On the group [b, a] (same timestamps, so
equal composite keys for the criterion oldest), _select_to_delete keeps b,
the first element, although a has the smaller key: ties are broken by list
position, not by key. -/
theorem c6_tie_kept_by_position :
    select_to_delete
      ⟨str "e", 100,
        [⟨str "b", 100, str "e", false, none, 5⟩,
         ⟨str "a", 100, str "e", false, none, 5⟩]⟩ [Criterion.oldest] =
      some (⟨str "b", 100, str "e", false, none, 5⟩,
        [⟨str "a", 100, str "e", false, none, 5⟩]) ∧
    compositeKey [Criterion.oldest] (⟨str "a", 100, str "e", false, none, 5⟩ : ObjectInfo) =
      compositeKey [Criterion.oldest] (⟨str "b", 100, str "e", false, none, 5⟩ : ObjectInfo) ∧
    strLt (str "a") (str "b") = true := by
  refine ⟨?_, ?_, ?_⟩
  · decide
  · decide
  · decide

/-- C6 (amended): on groups whose object list is strictly sorted by key
ascending (the order the index queries produce), the selector chooses
exactly one keeper: a member minimal for the composite criterion tuple
under lexicographic comparison with ties broken by key ascending; everyone
else is deleted.  On an arbitrarily ordered group, composite-key ties are
broken by list position instead. -/
theorem c6_selector_on_sorted_groups (g : DuplicateGroup) (cs : List Criterion)
    (hcs : cs ≠ []) (hne : g.objects ≠ [])
    (hsorted : g.objects.Pairwise (fun a b => strLt a.key b.key = true)) :
    ∃ keeper toDelete, select_to_delete g cs = some (keeper, toDelete) ∧
      keeper ∈ g.objects ∧
      toDelete = g.objects.filter (fun o => decide (o.key ≠ keeper.key)) ∧
      toDelete.length + 1 = g.objects.length ∧
      (∀ o ∈ g.objects,
        lexLt (compositeKey cs keeper) (compositeKey cs o) = true ∨
          (compositeKey cs keeper = compositeKey cs o ∧ strLe keeper.key o.key = true)) := by
  obtain ⟨x, xs, hx⟩ := List.exists_cons_of_ne_nil hne
  have hlen : ∀ a b : ObjectInfo, (compositeKey cs a).length = (compositeKey cs b).length := by
    intro a b
    unfold compositeKey
    simp
  have hpw : (x :: xs).Pairwise (fun a b => strLt a.key b.key = true) := hx ▸ hsorted
  rw [List.pairwise_cons] at hpw
  obtain ⟨g1, g2, g3⟩ := pyMin_fold (compositeKey cs) xs x hpw.1 hpw.2
  set r := xs.foldl
    (fun best o => if lexLt (compositeKey cs o) (compositeKey cs best) then o else best) x with hrdef
  have hmin : pyMin (compositeKey cs) g.objects = some r := by
    rw [hx]
    rfl
  have hrmem : r ∈ g.objects := by
    rw [hx]
    rcases g1 with he | ⟨hm, -⟩
    · simp [he]
    · simp [hm]
  refine ⟨r, g.objects.filter (fun o => decide (o.key ≠ r.key)), ?_, hrmem, rfl, ?_, ?_⟩
  · unfold select_to_delete
    rw [hmin]
  · exact filter_ne_key_length g.objects r hrmem (strLt_pairwise_key_nodup g.objects hsorted)
  · intro o ho
    have hor : o = x ∨ o ∈ xs := by
      rw [hx] at ho
      exact List.mem_cons.1 ho
    have hnb := g2 o hor
    by_cases heq : compositeKey cs o = compositeKey cs r
    · exact Or.inr ⟨heq.symm, g3 o hor heq⟩
    · left
      have := lexLt_total_eq (compositeKey cs o) (compositeKey cs r) (hlen o r)
      by_contra hcon
      rw [Bool.not_eq_true] at hcon
      exact heq (this hnb hcon)

/-- C6 (witness): the amended selector statement at a concrete key-sorted
group of two equal-timestamp copies under the criterion oldest. -/
theorem c6_witness :
    ∃ keeper toDelete,
      select_to_delete
        ⟨str "e", 100,
          [⟨str "a", 100, str "e", false, none, 5⟩,
           ⟨str "b", 100, str "e", false, none, 5⟩]⟩ [Criterion.oldest] =
        some (keeper, toDelete) ∧
      keeper ∈ [⟨str "a", 100, str "e", false, none, 5⟩,
        (⟨str "b", 100, str "e", false, none, 5⟩ : ObjectInfo)] ∧
      toDelete = [⟨str "a", 100, str "e", false, none, 5⟩,
        (⟨str "b", 100, str "e", false, none, 5⟩ : ObjectInfo)].filter
          (fun o => decide (o.key ≠ keeper.key)) ∧
      toDelete.length + 1 = 2 ∧
      (∀ o ∈ [⟨str "a", 100, str "e", false, none, 5⟩,
          (⟨str "b", 100, str "e", false, none, 5⟩ : ObjectInfo)],
        lexLt (compositeKey [Criterion.oldest] keeper) (compositeKey [Criterion.oldest] o) = true ∨
          (compositeKey [Criterion.oldest] keeper = compositeKey [Criterion.oldest] o ∧
            strLe keeper.key o.key = true)) :=
  c6_selector_on_sorted_groups
    ⟨str "e", 100,
      [⟨str "a", 100, str "e", false, none, 5⟩,
       ⟨str "b", 100, str "e", false, none, 5⟩]⟩ [Criterion.oldest]
    (by decide) (by decide) (by decide)

/-! ## Claims C4 and C5: the normalizer.  Character-table lemmas -/

theorem tlookup_mem {α : Type} :
    ∀ (t : List (Char × α)) (c : Char) (v : α), tlookup t c = some v → (c, v) ∈ t := by
  intro t
  induction t with
  | nil => intro c v h; simp [tlookup] at h
  | cons p rest ih =>
    intro c v h
    obtain ⟨k, w⟩ := p
    unfold tlookup at h
    by_cases hc : c = k
    · rw [if_pos hc] at h
      cases h
      simp [hc]
    · rw [if_neg hc] at h
      exact List.mem_cons_of_mem _ (ih c v h)

theorem pyLower_of_none (c : Char) (h : tlookup lowerTable c = none) : pyLower c = c := by
  unfold pyLower
  rw [h]

theorem pyLower_of_some (c d : Char) (h : tlookup lowerTable c = some d) : pyLower c = d := by
  unfold pyLower
  rw [h]

theorem lowerTable_ws : ∀ p ∈ lowerTable, pyIsSpace p.1 = false ∧ pyIsSpace p.2 = false := by
  decide

theorem lowerTable_vals_ne : ∀ p ∈ lowerTable, p.2 ≠ 'Ã' ∧ p.2 ≠ 'Â' ∧ p.2 ≠ '/' := by decide

theorem pyLower_space (c : Char) : pyIsSpace (pyLower c) = pyIsSpace c := by
  cases h : tlookup lowerTable c with
  | none => rw [pyLower_of_none c h]
  | some d =>
    rw [pyLower_of_some c d h]
    have := lowerTable_ws (c, d) (tlookup_mem _ c d h)
    rw [this.1, this.2]

theorem pyLower_ne_moji (c : Char) : pyLower c ≠ 'Ã' ∧ pyLower c ≠ 'Â' := by
  cases h : tlookup lowerTable c with
  | some d =>
    rw [pyLower_of_some c d h]
    have := lowerTable_vals_ne (c, d) (tlookup_mem _ c d h)
    exact ⟨this.1, this.2.1⟩
  | none =>
    rw [pyLower_of_none c h]
    constructor
    · rintro rfl
      exact absurd h (by decide)
    · rintro rfl
      exact absurd h (by decide)

theorem decomposeChar_of_none (c : Char) (h : tlookup decompTable c = none) :
    decomposeChar c = [c] := by
  unfold decomposeChar
  rw [h]

theorem decomposeChar_of_some (c : Char) (l : List Char) (h : tlookup decompTable c = some l) :
    decomposeChar c = l := by
  unfold decomposeChar
  rw [h]

theorem decompTable_vals_ne :
    ∀ p ∈ decompTable, ∀ d ∈ p.2, d ≠ 'Ã' ∧ d ≠ 'Â' ∧ d ≠ '/' := by decide

theorem decomp_lower_ne_moji (c d : Char) (hd : d ∈ decomposeChar (pyLower c)) :
    d ≠ 'Ã' ∧ d ≠ 'Â' := by
  cases h : tlookup decompTable (pyLower c) with
  | some l =>
    rw [decomposeChar_of_some _ l h] at hd
    have := decompTable_vals_ne (pyLower c, l) (tlookup_mem _ _ l h) d hd
    exact ⟨this.1, this.2.1⟩
  | none =>
    rw [decomposeChar_of_none _ h, List.mem_singleton] at hd
    subst hd
    exact pyLower_ne_moji c

theorem digit_not_ws (c : Char) (h : isDigitCh c = true) : pyIsSpace c = false := by
  by_contra hcon
  rw [Bool.not_eq_false] at hcon
  unfold pyIsSpace at hcon
  simp only [Bool.or_eq_true, decide_eq_true_eq] at hcon
  rcases hcon with ((((((rfl | rfl) | rfl) | rfl) | rfl) | rfl) | rfl) <;>
    exact absurd h (by decide)

/-! ## C4/C5: character provenance through the pipeline stages -/

theorem mem_of_rev_sublist (l s : Str) (hs : List.Sublist s l.reverse) :
    ∀ c ∈ s.reverse, c ∈ l := by
  intro c hc
  rw [List.mem_reverse] at hc
  have := hs.subset hc
  rwa [List.mem_reverse] at this

theorem subParenNum_chars (l l2 : Str) (h : subParenNum l = some l2) : ∀ c ∈ l2, c ∈ l := by
  unfold subParenNum at h
  split at h
  · next r1 heq =>
    dsimp only at h
    split at h
    · exact absurd h (by simp)
    · split at h
      · next r3 heq2 =>
        cases h
        apply mem_of_rev_sublist l
        rw [heq]
        have h1 : List.Sublist (r3.dropWhile pyIsSpace) r3 :=
          (List.dropWhile_suffix pyIsSpace).sublist
        have h2 : List.Sublist r3 (r1.drop (r1.takeWhile isDigitCh).length) := by
          rw [heq2]
          exact List.sublist_cons_self _ _
        have h3 : List.Sublist (r1.drop (r1.takeWhile isDigitCh).length) r1 :=
          List.drop_sublist _ _
        exact ((h1.trans h2).trans h3).trans (List.sublist_cons_self _ _)
      · exact absurd h (by simp)
  · exact absurd h (by simp)

theorem subDashWord_chars (w l l2 : Str) (h : subDashWord w l = some l2) : ∀ c ∈ l2, c ∈ l := by
  unfold subDashWord at h
  dsimp only at h
  split at h
  · split at h
    · next r2 heq =>
      cases h
      apply mem_of_rev_sublist l
      have h1 : List.Sublist (r2.dropWhile pyIsSpace) r2 :=
        (List.dropWhile_suffix pyIsSpace).sublist
      have h2 : List.Sublist r2 ((l.reverse.drop w.length).dropWhile pyIsSpace) := by
        rw [heq]
        exact List.sublist_cons_self _ _
      have h3 : List.Sublist ((l.reverse.drop w.length).dropWhile pyIsSpace)
          (l.reverse.drop w.length) := (List.dropWhile_suffix pyIsSpace).sublist
      have h4 : List.Sublist (l.reverse.drop w.length) l.reverse := List.drop_sublist _ _
      exact ((h1.trans h2).trans h3).trans h4
    · exact absurd h (by simp)
  · exact absurd h (by simp)

theorem subUnderscoreCopy_chars (l l2 : Str) (h : subUnderscoreCopy l = some l2) :
    ∀ c ∈ l2, c ∈ l := by
  unfold subUnderscoreCopy at h
  dsimp only at h
  split at h
  · split at h
    · next c2 r2 heq =>
      split at h
      · cases h
        apply mem_of_rev_sublist l
        have h2 : List.Sublist r2 (l.reverse.drop 4) := by
          rw [heq]
          exact List.sublist_cons_self _ _
        exact h2.trans (List.drop_sublist _ _)
      · exact absurd h (by simp)
    · exact absurd h (by simp)
  · exact absurd h (by simp)

theorem subUnderscoreNum_chars (l l2 : Str) (h : subUnderscoreNum l = some l2) :
    ∀ c ∈ l2, c ∈ l := by
  unfold subUnderscoreNum at h
  dsimp only at h
  split at h
  · exact absurd h (by simp)
  · split at h
    · next r2 heq =>
      cases h
      apply mem_of_rev_sublist l
      have h2 : List.Sublist r2 (l.reverse.drop (l.reverse.takeWhile isDigitCh).length) := by
        rw [heq]
        exact List.sublist_cons_self _ _
      exact h2.trans (List.drop_sublist _ _)
    · exact absurd h (by simp)

theorem applySub_chars (f : Str → Option Str)
    (hf : ∀ l l2, f l = some l2 → ∀ c ∈ l2, c ∈ l) :
    ∀ l c, c ∈ applySub f l → c ∈ l := by
  intro l c hc
  unfold applySub at hc
  split at hc
  · next l2 heq => exact hf l l2 heq c hc
  · exact hc

theorem dollarSub_chars (f : Str → Option Str)
    (hf : ∀ l l2, f l = some l2 → ∀ c ∈ l2, c ∈ l) :
    ∀ l l2, dollarSub f l = some l2 → ∀ c ∈ l2, c ∈ l := by
  intro l l2 h c hc
  unfold dollarSub at h
  split at h
  · next r heq =>
    have hl : l = r.reverse ++ ['\n'] := by
      have := congrArg List.reverse heq
      rwa [List.reverse_reverse, List.reverse_cons] at this
    split at h
    · next s hs =>
      rw [Option.some.injEq] at h
      subst h
      rcases List.mem_append.1 hc with hcs | hcn
      · exact hl ▸ List.mem_append.2 (Or.inl (hf _ _ hs c hcs))
      · rw [List.mem_singleton] at hcn
        subst hcn
        exact hl ▸ List.mem_append.2 (Or.inr (by simp))
    · exact absurd h (by simp)
  · exact hf l l2 h c hc

theorem stripCopySuffixes_chars (l : Str) : ∀ c ∈ stripCopySuffixes l, c ∈ l := by
  intro c hc
  unfold stripCopySuffixes at hc
  have hc1 := applySub_chars (dollarSub subUnderscoreNum)
    (dollarSub_chars _ subUnderscoreNum_chars) _ c hc
  have hc2 := applySub_chars (dollarSub subUnderscoreCopy)
    (dollarSub_chars _ subUnderscoreCopy_chars) _ c hc1
  have hc3 := applySub_chars (dollarSub (subDashWord wordCopy))
    (dollarSub_chars _ (subDashWord_chars wordCopy)) _ c hc2
  have hc4 := applySub_chars (dollarSub (subDashWord wordCopie))
    (dollarSub_chars _ (subDashWord_chars wordCopie)) _ c hc3
  exact applySub_chars (dollarSub subParenNum)
    (dollarSub_chars _ subParenNum_chars) _ c hc4

theorem pystrip_chars (l : Str) : ∀ c ∈ pystrip l, c ∈ l := by
  intro c hc
  unfold pystrip at hc
  have h1 : c ∈ l.dropWhile pyIsSpace :=
    mem_of_rev_sublist (l.dropWhile pyIsSpace)
      ((l.dropWhile pyIsSpace).reverse.dropWhile pyIsSpace)
      (List.dropWhile_suffix pyIsSpace).sublist c hc
  exact (List.dropWhile_suffix pyIsSpace).sublist.subset h1

theorem collapseWs_chars : ∀ (l : Str), ∀ c ∈ collapseWs l, c ∈ l ∨ c = ' ' := by
  intro l
  induction l with
  | nil => intro c hc; simp [collapseWs] at hc
  | cons x rest ih =>
    intro c hc
    unfold collapseWs at hc
    by_cases hx : pyIsSpace x = true
    · rw [if_pos hx] at hc
      by_cases hh : headSpace rest = true
      · rw [if_pos hh] at hc
        rcases ih c hc with h | h
        · exact Or.inl (by simp [h])
        · exact Or.inr h
      · rw [if_neg hh] at hc
        rcases List.mem_cons.1 hc with rfl | hc2
        · exact Or.inr rfl
        · rcases ih c hc2 with h | h
          · exact Or.inl (by simp [h])
          · exact Or.inr h
    · rw [if_neg hx] at hc
      rcases List.mem_cons.1 hc with rfl | hc2
      · exact Or.inl (by simp)
      · rcases ih c hc2 with h | h
        · exact Or.inl (by simp [h])
        · exact Or.inr h

theorem stripAccents_chars (l : Str) (c : Char) (hc : c ∈ stripAccents l) :
    isMark c = false ∧ ∃ x ∈ l, c ∈ decomposeChar x := by
  unfold stripAccents at hc
  rw [List.mem_filter] at hc
  obtain ⟨hmem, hmark⟩ := hc
  rw [List.mem_flatMap] at hmem
  refine ⟨?_, hmem⟩
  rcases h : isMark c
  · rfl
  · rw [h] at hmark
    exact absurd hmark (by simp)

/-- Every character of the normalized stem is a space or a non-mark piece of
the decomposition of a lowered stem character. -/
theorem normStem_chars (k : Str) (c : Char) (hc : c ∈ normStem k) :
    c = ' ' ∨ (isMark c = false ∧
      ∃ x ∈ (splitext (basename k)).1, c ∈ decomposeChar (pyLower x)) := by
  unfold normStem at hc
  rcases collapseWs_chars _ c hc with hc1 | hsp
  · have hc2 := pystrip_chars _ c hc1
    have hc3 := stripCopySuffixes_chars _ c hc2
    obtain ⟨hmark, x, hx, hdx⟩ := stripAccents_chars _ c hc3
    rw [List.mem_map] at hx
    obtain ⟨y, hy, rfl⟩ := hx
    exact Or.inr ⟨hmark, y, hy, hdx⟩
  · exact Or.inl hsp

/-! ## C4: stage fixpoints on canonical characters

A canonical character is a joint fixpoint of lowercasing and NFKD
decomposition that is not a combining mark.  The program's normalized stems
are NOT canonical in general: NFKD can compatibility-decompose a character
to an uppercase letter (ℂ becomes C), which the next pass then lowercases,
so canonicity of the normalized stem is a genuine per-key side condition of
the idempotence theorem below, not a theorem. -/

theorem headSpace_take (l : Str) (n : Nat) (h : headSpace l = false) :
    headSpace (l.take n) = false := by
  cases l with
  | nil => simp [headSpace]
  | cons c rest =>
    cases n with
    | zero => rfl
    | succ m => exact h

theorem splitext_fst_chars (p : Str) : ∀ c ∈ (splitext p).1, c ∈ p := by
  intro c hc
  unfold splitext at hc
  split at hc
  · exact hc
  · dsimp only at hc
    split at hc
    · exact hc
    · split at hc
      · exact hc
      · exact (List.take_sublist _ _).subset hc

theorem splitext_fst_take (p : Str) : ∃ n, (splitext p).1 = p.take n := by
  unfold splitext
  split
  · exact ⟨p.length, by rw [List.take_length]⟩
  · next d heq =>
    dsimp only
    split
    · exact ⟨p.length, by rw [List.take_length]⟩
    · split
      · exact ⟨p.length, by rw [List.take_length]⟩
      · exact ⟨d, rfl⟩

theorem getLast?_mem_list {α : Type} (l : List α) (a : α) (h : l.getLast? = some a) :
    a ∈ l := by
  have hm : a ∈ l.getLast? := by rw [h]; rfl
  obtain ⟨hne, rfl⟩ := List.mem_getLast?_eq_getLast hm
  exact List.getLast_mem hne

theorem rfindIdx_spec (c : Char) (l : Str) (i : Nat) (h : rfindIdx c l = some i) :
    i < l.length ∧ l.getD i ' ' = c := by
  unfold rfindIdx at h
  have hmem := getLast?_mem_list _ i h
  rw [List.mem_filter] at hmem
  obtain ⟨hrange, hdec⟩ := hmem
  rw [List.mem_range] at hrange
  rw [decide_eq_true_eq] at hdec
  exact ⟨hrange, hdec⟩

theorem splitext_snd_head (p : Str) :
    (splitext p).2 = [] ∨ ∃ rest, (splitext p).2 = '.' :: rest := by
  unfold splitext
  split
  · exact Or.inl rfl
  · next d heq =>
    dsimp only
    split
    · exact Or.inl rfl
    · split
      · exact Or.inl rfl
      · right
        obtain ⟨hlt, hget⟩ := rfindIdx_spec '.' p d heq
        refine ⟨p.drop (d + 1), ?_⟩
        rw [List.drop_eq_getElem_cons hlt]
        rw [List.getD_eq_getElem p ' ' hlt] at hget
        rw [hget]

/-! ## C4/C5: the characters of a normalized name -/

theorem normalize_no_moji (k : Str) : ∀ c ∈ normalize_name k, c ≠ 'Ã' ∧ c ≠ 'Â' := by
  intro c hc
  unfold normalize_name at hc
  rcases List.mem_append.1 hc with hs | he
  · rcases normStem_chars k c hs with rfl | ⟨-, x, -, hdx⟩
    · exact ⟨by decide, by decide⟩
    · exact decomp_lower_ne_moji x c hdx
  · unfold normExt at he
    rw [List.mem_map] at he
    obtain ⟨y, -, rfl⟩ := he
    exact pyLower_ne_moji y

theorem basename_sub (l : Str) : ∀ c ∈ basename l, c ∈ l := by
  intro c hc
  unfold basename at hc
  rw [List.mem_reverse] at hc
  exact List.mem_reverse.1 ((List.takeWhile_sublist _).subset hc)

theorem hasMojibake_eq_false : ∀ l : Str, (∀ c ∈ l, c ≠ 'Ã' ∧ c ≠ 'Â') →
    hasMojibake l = false
  | [], _ => rfl
  | [_], _ => rfl
  | c1 :: c2 :: rest, h => by
    unfold hasMojibake
    rw [hasMojibake_eq_false (c2 :: rest) (fun c hc => h c (List.mem_cons_of_mem _ hc))]
    have h1 := h c1 (by simp)
    unfold mojiPair
    simp [h1.1, h1.2]

theorem score_le_eight (k : Str)
    (h : hasMojibake (splitext (basename k)).1 = false) :
    name_quality_score k ≤ 8 := by
  show (if hasMojibake (splitext (basename k)).1 then 10 else 0) +
    (if hasCopySuffix (splitext (basename k)).1 then 5 else 0) +
    (if decide ((splitext (basename k)).1 ≠ pystrip (splitext (basename k)).1) then 2 else 0) +
    (if hasDoubleSpace (splitext (basename k)).1 then 1 else 0) ≤ 8
  rw [h, if_neg (by simp)]
  split_ifs <;> omega

/-- C5 (counterexample): normalization can raise the quality penalty from 0
to 8.  The key starting with a combining acute has a pristine (empty-looking)
stem, but its accented prefix is stripped, so the dotted extension with a
double space, a copy suffix matching before the final newline and trailing
whitespace becomes the new stem. -/
theorem c5_score_increase :
    name_quality_score (str "́.a  b copy\n") = 0 ∧
    name_quality_score (normalize_name (str "́.a  b copy\n")) = 8 :=
  ⟨by decide, by decide⟩

/-- C5 (amended): the quality score of a normalized name is not in general
bounded by the original score, but it never exceeds 8 (and in particular is
at most the original score plus 8): the mojibake penalty (10) can never
survive normalization, because lowercasing and accent-stripping remove every
capital A-tilde and A-circumflex, while the copy-suffix (5), edge-whitespace
(2) and double-space (1) penalties can all reappear when the extension is
reparsed as the stem. -/
theorem c5_quality_bound (k : Str) :
    name_quality_score (normalize_name k) ≤ 8 ∧
    name_quality_score (normalize_name k) ≤ name_quality_score k + 8 := by
  have hmoji : hasMojibake (splitext (basename (normalize_name k))).1 = false := by
    apply hasMojibake_eq_false
    intro c hc
    exact normalize_no_moji k c (basename_sub _ c (splitext_fst_chars _ c hc))
  have h8 := score_le_eight _ hmoji
  exact ⟨h8, Nat.le_trans h8 (Nat.le_add_left 8 _)⟩

end S3Dedup
